import Mathlib

/-!
Verification of the newsTTS repository's content-extraction, chunking,
listing and orchestration pipeline.

Strings are modelled as `List Char` (Python `str`), with Python's
whitespace class restricted to its ASCII part.  Network calls are
modelled as explicit function parameters (`String → Option Html` etc.:
`none` is a raised-and-caught request exception).  BeautifulSoup tags
are always truthy (`Tag.__bool__` returns `True`), so `if tag:` tests
are modelled as `Option.isSome` of the lookup result.
-/

namespace NewsTTS

/-- The sentence-terminator class of `re.split(r'[.!?]+\s+', text)`
in `ElevenLabsSwedishTTS.split_text`. -/
def isPunct (c : Char) : Bool := c = '.' || c = '!' || c = '?'

/-- Python's `\s` / `str.strip()` whitespace class (ASCII part). -/
def isSpc (c : Char) : Bool :=
  c = ' ' || c = '\t' || c = '\n' || c = '\r' || c = '\x0b' || c = '\x0c'

/-- Left part of Python `str.strip()`. -/
def ltrim (s : List Char) : List Char := s.dropWhile isSpc

/-- Right part of Python `str.strip()`. -/
def rtrim (s : List Char) : List Char := (s.reverse.dropWhile isSpc).reverse

/-- Python `str.strip()` (ASCII whitespace). -/
def pstrip (s : List Char) : List Char := rtrim (ltrim s)

/-- The scanner behind `re.split(r'[.!?]+\s+', text)`.  `acc` is the
reversed current piece, `pend` the reversed pending run of sentence
terminators, `skp` whether we are consuming the whitespace run that
follows a match.  A match of the pattern is a maximal nonempty run of
`[.!?]` followed directly by at least one whitespace character; the
match consumes the punctuation run and the maximal whitespace run. -/
def reSplitGo (acc pend : List Char) (skp : Bool) : List Char → List (List Char)
  | [] => if pend.isEmpty then [acc.reverse] else [(pend ++ acc).reverse]
  | c :: rest =>
    if isPunct c then reSplitGo acc (c :: pend) false rest
    else if isSpc c then
      if pend.isEmpty then
        (if skp then reSplitGo [] [] true rest
         else reSplitGo (c :: acc) [] false rest)
      else acc.reverse :: reSplitGo [] [] true rest
    else reSplitGo (c :: (pend ++ acc)) [] false rest

/-- `re.split(r'[.!?]+\s+', text)`. -/
def reSplit (t : List Char) : List (List Char) := reSplitGo [] [] false t

/-- The chunk separator `". "` inserted by `split_text`. -/
def sep : List Char := ['.', ' ']

/-- The stripped, nonempty sentences of a text, i.e. the values of
`sentence.strip()` that survive the `if not sentence: continue` filter
in `split_text`. -/
def sentencesOf (t : List Char) : List (List Char) :=
  ((reSplit t).map pstrip).filter (fun s => !s.isEmpty)

/-- The loop of `ElevenLabsSwedishTTS.split_text`: walk the raw
sentence list, strip each, skip empties, close the current chunk when
adding the next sentence would exceed `max_length`, and flush the
final nonempty chunk. -/
def splitTextGo (m : Nat) (chunks : List (List Char)) (cur : List Char) :
    List (List Char) → List (List Char)
  | [] => if (pstrip cur).isEmpty then chunks else chunks ++ [pstrip cur]
  | s :: rest =>
    let s1 := pstrip s
    if s1.isEmpty then splitTextGo m chunks cur rest
    else if m < cur.length + s1.length + 2 ∧ cur ≠ [] then
      splitTextGo m (chunks ++ [pstrip cur]) s1 rest
    else splitTextGo m chunks (if cur.isEmpty then s1 else cur ++ sep ++ s1) rest

/-- `ElevenLabsSwedishTTS.split_text(text, max_length)`. -/
def split_text (text : List Char) (maxLength : Nat) : List (List Char) :=
  splitTextGo maxLength [] [] (reSplit text)

/-- A string is `Clean` when it is nonempty and neither starts nor ends
with whitespace: exactly the fixed points of Python `str.strip()` other
than the empty string. -/
def Clean (s : List Char) : Prop :=
  s ≠ [] ∧ (∀ c ∈ s.head?, isSpc c = false) ∧ (∀ c ∈ s.getLast?, isSpc c = false)

lemma head?_dropWhile_spec (p : Char → Bool) :
    ∀ (l : List Char) {c : Char}, (l.dropWhile p).head? = some c → p c = false := by
  intro l
  induction l with
  | nil => intro c h; simp [List.dropWhile] at h
  | cons a t ih =>
    intro c h
    by_cases hp : p a = true
    · rw [List.dropWhile_cons_of_pos hp] at h; exact ih h
    · rw [List.dropWhile_cons_of_neg hp] at h
      simp only [List.head?_cons, Option.some.injEq] at h
      subst h
      simpa using hp

lemma head?_append_left {α : Type} {a b : List α} (h : a ≠ []) :
    (a ++ b).head? = a.head? := by
  cases a with
  | nil => exact absurd rfl h
  | cons x t => rfl

lemma getLast?_append_right {α : Type} {a b : List α} (h : b ≠ []) :
    (a ++ b).getLast? = b.getLast? := by
  rw [← List.head?_reverse, List.reverse_append, head?_append_left, List.head?_reverse]
  simpa using h

lemma ltrim_eq_self {s : List Char} (h : ∀ c ∈ s.head?, isSpc c = false) :
    ltrim s = s := by
  cases s with
  | nil => rfl
  | cons a t =>
    have ha : isSpc a = false := h a rfl
    simp [ltrim, List.dropWhile_cons, ha]

lemma rtrim_eq_self {s : List Char} (h : ∀ c ∈ s.getLast?, isSpc c = false) :
    rtrim s = s := by
  have h2 : ∀ c ∈ s.reverse.head?, isSpc c = false := by
    intro c hc; exact h c (by rwa [List.head?_reverse] at hc)
  have : s.reverse.dropWhile isSpc = s.reverse := ltrim_eq_self h2
  rw [rtrim, this, List.reverse_reverse]

lemma pstrip_eq_self {s : List Char} (h : Clean s) : pstrip s = s := by
  obtain ⟨-, h1, h2⟩ := h
  rw [pstrip, ltrim_eq_self h1, rtrim_eq_self h2]

lemma pstrip_nil : pstrip [] = [] := rfl

lemma rtrim_decomp (q : List Char) :
    rtrim q ++ (q.reverse.takeWhile isSpc).reverse = q := by
  rw [rtrim, ← List.reverse_append, List.takeWhile_append_dropWhile, List.reverse_reverse]

lemma clean_of_pstrip {s : List Char} (h : pstrip s ≠ []) : Clean (pstrip s) := by
  refine ⟨h, ?_, ?_⟩
  · intro c hc
    have hd : (rtrim (ltrim s) ++ ((ltrim s).reverse.takeWhile isSpc).reverse).head? =
        (rtrim (ltrim s)).head? := head?_append_left h
    rw [rtrim_decomp] at hd
    have : (ltrim s).head? = some c := by rw [hd]; exact hc
    exact head?_dropWhile_spec isSpc s this
  · intro c hc
    have : ((ltrim s).reverse.dropWhile isSpc).reverse.getLast? = some c := hc
    rw [List.getLast?_reverse] at this
    exact head?_dropWhile_spec isSpc (ltrim s).reverse this

lemma pstrip_idem (s : List Char) : pstrip (pstrip s) = pstrip s := by
  by_cases h : pstrip s = []
  · rw [h, pstrip_nil]
  · exact pstrip_eq_self (clean_of_pstrip h)

lemma clean_head {s : List Char} (h : Clean s) :
    ∀ c ∈ s.head?, isSpc c = false := h.2.1

lemma clean_sep_append {a b : List Char} (ha : Clean a) (hb : Clean b) :
    Clean (a ++ sep ++ b) := by
  refine ⟨by simp [ha.1], ?_, ?_⟩
  · intro c hc
    rw [List.append_assoc, head?_append_left ha.1] at hc
    exact ha.2.1 c hc
  · intro c hc
    rw [getLast?_append_right hb.1] at hc
    exact hb.2.2 c hc

/-- Adjacent-pair relation: a terminator character is never directly
followed by whitespace.  A string all of whose adjacent pairs satisfy
it contains no match of the pattern `[.!?]+\s+`. -/
def PSok (a b : Char) : Prop := ¬(isPunct a = true ∧ isSpc b = true)

/-- No occurrence of the split pattern inside the string. -/
def NoPS (l : List Char) : Prop := l.Chain' PSok

/-- The last character, if any, is not a sentence terminator. -/
def LastOk (s : List Char) : Prop := ∀ c ∈ s.getLast?, isPunct c = false

lemma punct_not_spc {c : Char} (h : isPunct c = true) : isSpc c = false := by
  simp only [isPunct, Bool.or_eq_true, decide_eq_true_eq] at h
  rcases h with (h | h) | h <;> subst h <;> decide

lemma spc_not_punct {c : Char} (h : isSpc c = true) : isPunct c = false := by
  simp only [isSpc, Bool.or_eq_true, decide_eq_true_eq] at h
  rcases h with ((((h | h) | h) | h) | h) | h <;> subst h <;> decide

lemma noPS_allPunct {l : List Char} (h : ∀ c ∈ l, isPunct c = true) : NoPS l := by
  induction l with
  | nil => exact List.chain'_nil
  | cons a t ih =>
    cases t with
    | nil => exact List.chain'_singleton a
    | cons b u =>
      refine List.chain'_cons.mpr ⟨?_, ih ?_⟩
      · rintro ⟨-, hs⟩
        have := punct_not_spc (h b (by simp))
        rw [this] at hs; exact Bool.false_ne_true hs
      · intro c hc; exact h c (List.mem_cons_of_mem _ hc)

lemma noPS_left {a b : List Char} (h : NoPS (a ++ b)) : NoPS a :=
  (List.chain'_append.mp h).1

lemma noPS_right {a b : List Char} (h : NoPS (a ++ b)) : NoPS b :=
  (List.chain'_append.mp h).2.1

lemma noPS_ltrim {s : List Char} (h : NoPS s) : NoPS (ltrim s) :=
  noPS_right (a := s.takeWhile isSpc)
    (by simp only [ltrim]; rw [List.takeWhile_append_dropWhile]; exact h)

lemma noPS_rtrim {q : List Char} (h : NoPS q) : NoPS (rtrim q) :=
  noPS_left (b := (q.reverse.takeWhile isSpc).reverse)
    (by rw [rtrim_decomp]; exact h)

lemma noPS_pstrip {s : List Char} (h : NoPS s) : NoPS (pstrip s) :=
  noPS_rtrim (noPS_ltrim h)

lemma lastOk_pstrip {p : List Char} (hn : NoPS p) (hl : LastOk p) :
    LastOk (pstrip p) := by
  intro c hc
  by_contra hcp0
  have hcp : isPunct c = true := by
    cases h : isPunct c
    · exact absurd h hcp0
    · rfl
  have hnq : NoPS (ltrim p) := noPS_ltrim hn
  have hlq : LastOk (ltrim p) := by
    intro d hd
    apply hl
    have hne : ltrim p ≠ [] := by
      intro h0; rw [h0] at hd; simp at hd
    have hp : p.takeWhile isSpc ++ ltrim p = p := by
      simp only [ltrim]; exact List.takeWhile_append_dropWhile isSpc p
    rw [← hp, getLast?_append_right hne]
    exact hd
  have hdec : rtrim (ltrim p) ++ ((ltrim p).reverse.takeWhile isSpc).reverse = ltrim p :=
    rtrim_decomp (ltrim p)
  by_cases hj : ((ltrim p).reverse.takeWhile isSpc).reverse = []
  · rw [hj, List.append_nil] at hdec
    have hfin : isPunct c = false := hlq c (by rw [← hdec]; exact hc)
    rw [hfin] at hcp; exact Bool.false_ne_true hcp
  · have hchain : List.Chain' PSok
        (rtrim (ltrim p) ++ ((ltrim p).reverse.takeWhile isSpc).reverse) := by
      rw [hdec]; exact hnq
    obtain ⟨y, ys, hjc⟩ : ∃ y ys,
        ((ltrim p).reverse.takeWhile isSpc).reverse = y :: ys := by
      rcases h0 : ((ltrim p).reverse.takeWhile isSpc).reverse with _ | ⟨z, zs⟩
      · exact absurd h0 hj
      · exact ⟨z, zs, rfl⟩
    have hyspc : isSpc y = true := by
      have hymem : y ∈ ((ltrim p).reverse.takeWhile isSpc).reverse := by
        rw [hjc]; exact List.mem_cons_self y ys
      rw [List.mem_reverse] at hymem
      exact List.mem_takeWhile_imp hymem
    refine (List.chain'_append.mp hchain).2.2 c hc y ?_ ⟨hcp, hyspc⟩
    rw [hjc]; rfl

lemma isEmpty_false_of_ne {α : Type} {l : List α} (h : l ≠ []) :
    l.isEmpty = false := by
  cases l with
  | nil => exact absurd rfl h
  | cons a t => rfl

lemma dropLast_cons_of_ne {α : Type} {a : α} {l : List α} (h : l ≠ []) :
    (a :: l).dropLast = a :: l.dropLast := by
  cases l with
  | nil => exact absurd rfl h
  | cons b t => rfl

lemma mem_dropLast_filter {α : Type} {P : α → Bool} {l : List α} {x : α}
    (h : x ∈ (l.filter P).dropLast) : x ∈ l.dropLast := by
  have hxl : x ∈ l := List.mem_of_mem_filter ((l.filter P).dropLast_sublist.mem h)
  rcases List.eq_nil_or_concat l with hnil | ⟨l0, a, hcat⟩
  · rw [hnil] at hxl; simp at hxl
  rw [List.concat_eq_append] at hcat
  subst hcat
  rw [List.dropLast_concat]
  rcases List.mem_append.mp hxl with hx0 | hxa
  · exact hx0
  · have hxa : x = a := by simpa using hxa
    subst hxa
    rw [List.filter_append] at h
    cases hPa : P x with
    | true =>
      rw [show List.filter P [x] = [x] by simp [hPa], List.dropLast_concat] at h
      exact List.mem_of_mem_filter h
    | false =>
      rw [show List.filter P [x] = [] by simp [hPa], List.append_nil] at h
      exact List.mem_of_mem_filter ((l0.filter P).dropLast_sublist.mem h)

lemma dropLast_map {α β : Type} (f : α → β) (l : List α) :
    (l.map f).dropLast = l.dropLast.map f := by
  induction l with
  | nil => rfl
  | cons a t ih =>
    cases t with
    | nil => rfl
    | cons b u =>
      rw [List.map_cons, dropLast_cons_of_ne (show List.map f (b :: u) ≠ [] by simp),
        ih, dropLast_cons_of_ne (show (b :: u) ≠ [] by simp), List.map_cons]

lemma reSplitGo_nil (acc pend : List Char) (skp : Bool) :
    reSplitGo acc pend skp [] =
      if pend.isEmpty then [acc.reverse] else [(pend ++ acc).reverse] := rfl

lemma reSplitGo_punct {c : Char} (acc pend : List Char) (skp : Bool)
    (rest : List Char) (h : isPunct c = true) :
    reSplitGo acc pend skp (c :: rest) = reSplitGo acc (c :: pend) false rest := by
  simp [reSplitGo, h]

lemma reSplitGo_spc_pend {c : Char} (acc pend : List Char) (skp : Bool)
    (rest : List Char) (h1 : isPunct c = false) (h2 : isSpc c = true)
    (h3 : pend ≠ []) :
    reSplitGo acc pend skp (c :: rest) =
      acc.reverse :: reSplitGo [] [] true rest := by
  simp [reSplitGo, h1, h2, isEmpty_false_of_ne h3]

lemma reSplitGo_spc_norm {c : Char} (acc : List Char) (rest : List Char)
    (h1 : isPunct c = false) (h2 : isSpc c = true) :
    reSplitGo acc [] false (c :: rest) = reSplitGo (c :: acc) [] false rest := by
  simp [reSplitGo, h1, h2]

lemma reSplitGo_spc_skip {c : Char} (acc : List Char) (rest : List Char)
    (h1 : isPunct c = false) (h2 : isSpc c = true) :
    reSplitGo acc [] true (c :: rest) = reSplitGo [] [] true rest := by
  simp [reSplitGo, h1, h2]

lemma reSplitGo_other {c : Char} (acc pend : List Char) (skp : Bool)
    (rest : List Char) (h1 : isPunct c = false) (h2 : isSpc c = false) :
    reSplitGo acc pend skp (c :: rest) =
      reSplitGo (c :: (pend ++ acc)) [] false rest := by
  simp [reSplitGo, h1, h2]

lemma reSplitGo_ne_nil :
    ∀ (cs acc pend : List Char) (skp : Bool), reSplitGo acc pend skp cs ≠ [] := by
  intro cs
  induction cs with
  | nil =>
    intro acc pend skp
    rw [reSplitGo_nil]
    split <;> simp
  | cons c rest ih =>
    intro acc pend skp
    cases h1 : isPunct c with
    | true => rw [reSplitGo_punct _ _ _ _ h1]; exact ih _ _ _
    | false =>
      cases h2 : isSpc c with
      | true =>
        by_cases h3 : pend = []
        · subst h3
          cases skp with
          | true => rw [reSplitGo_spc_skip _ _ h1 h2]; exact ih _ _ _
          | false => rw [reSplitGo_spc_norm _ _ h1 h2]; exact ih _ _ _
        · rw [reSplitGo_spc_pend _ _ _ _ h1 h2 h3]; simp
      | false => rw [reSplitGo_other _ _ _ _ h1 h2]; exact ih _ _ _

/-- Structural invariant of the scanner: every produced piece contains no
match of the split pattern, and every piece other than the last does not
end in a sentence terminator. -/
lemma reSplitGo_inv :
    ∀ (cs acc pend : List Char) (skp : Bool),
      (∀ c ∈ pend, isPunct c = true) →
      NoPS acc.reverse →
      (∀ c ∈ acc.head?, isPunct c = false) →
      (∀ p ∈ reSplitGo acc pend skp cs, NoPS p) ∧
      (∀ p ∈ (reSplitGo acc pend skp cs).dropLast, LastOk p) := by
  intro cs
  induction cs with
  | nil =>
    intro acc pend skp hpend hacc hhd
    rw [reSplitGo_nil]
    by_cases hp : pend = []
    · subst hp
      simp only [List.isEmpty_nil, if_true]
      refine ⟨?_, ?_⟩
      · intro p hp; rw [List.mem_singleton] at hp; subst hp; exact hacc
      · intro p hp; rw [List.dropLast_single] at hp; simp at hp
    · rw [isEmpty_false_of_ne hp, if_neg (by simp)]
      refine ⟨?_, ?_⟩
      · intro q hq
        rw [List.mem_singleton] at hq; subst hq
        rw [List.reverse_append]
        refine List.chain'_append.mpr ⟨hacc, ?_, ?_⟩
        · exact noPS_allPunct (fun c hc => hpend c (List.mem_reverse.mp hc))
        · intro x hx y hy
          rw [List.getLast?_reverse] at hx
          rintro ⟨hxp, -⟩
          rw [hhd x hx] at hxp; exact Bool.false_ne_true hxp
      · intro q hq; rw [List.dropLast_single] at hq; simp at hq
  | cons c rest ih =>
    intro acc pend skp hpend hacc hhd
    cases h1 : isPunct c with
    | true =>
      rw [reSplitGo_punct _ _ _ _ h1]
      refine ih acc (c :: pend) false ?_ hacc hhd
      intro d hd
      rcases List.mem_cons.mp hd with h | h
      · subst h; exact h1
      · exact hpend d h
    | false =>
      cases h2 : isSpc c with
      | true =>
        by_cases h3 : pend = []
        · subst h3
          cases skp with
          | true =>
            rw [reSplitGo_spc_skip _ _ h1 h2]
            exact ih [] [] true (by simp) List.chain'_nil (by simp)
          | false =>
            rw [reSplitGo_spc_norm _ _ h1 h2]
            refine ih (c :: acc) [] false (by simp) ?_ ?_
            · rw [List.reverse_cons]
              refine List.chain'_append.mpr ⟨hacc, List.chain'_singleton c, ?_⟩
              intro x hx y hy
              rw [List.getLast?_reverse] at hx
              rintro ⟨hxp, -⟩
              rw [hhd x hx] at hxp; exact Bool.false_ne_true hxp
            · intro d hd
              rw [List.head?_cons, Option.mem_def, Option.some.injEq] at hd
              subst hd; exact h1
        · rw [reSplitGo_spc_pend _ _ _ _ h1 h2 h3]
          obtain ⟨htail, htail2⟩ := ih [] [] true (by simp) List.chain'_nil (by simp)
          refine ⟨?_, ?_⟩
          · intro p hp
            rcases List.mem_cons.mp hp with h | h
            · subst h; exact hacc
            · exact htail p h
          · intro p hp
            rw [dropLast_cons_of_ne (reSplitGo_ne_nil _ _ _ _)] at hp
            rcases List.mem_cons.mp hp with h | h
            · subst h
              intro d hd
              rw [List.getLast?_reverse] at hd
              exact hhd d hd
            · exact htail2 p h
      | false =>
        rw [reSplitGo_other _ _ _ _ h1 h2]
        refine ih (c :: (pend ++ acc)) [] false (by simp) ?_ ?_
        · rw [List.reverse_cons, List.reverse_append]
          refine List.chain'_append.mpr ⟨?_, List.chain'_singleton c, ?_⟩
          · refine List.chain'_append.mpr ⟨hacc, ?_, ?_⟩
            · exact noPS_allPunct (fun d hd => hpend d (List.mem_reverse.mp hd))
            · intro x hx y hy
              rw [List.getLast?_reverse] at hx
              rintro ⟨hxp, -⟩
              rw [hhd x hx] at hxp; exact Bool.false_ne_true hxp
          · intro x hx y hy
            rw [List.head?_cons, Option.mem_def, Option.some.injEq] at hy
            subst hy
            rintro ⟨-, hys⟩
            rw [h2] at hys; exact Bool.false_ne_true hys
        · intro d hd
          rw [List.head?_cons, Option.mem_def, Option.some.injEq] at hd
          subst hd; exact h1

lemma reSplit_noPS {t : List Char} : ∀ p ∈ reSplit t, NoPS p :=
  (reSplitGo_inv t [] [] false (by simp) List.chain'_nil (by simp)).1

lemma reSplit_lastOk {t : List Char} : ∀ p ∈ (reSplit t).dropLast, LastOk p :=
  (reSplitGo_inv t [] [] false (by simp) List.chain'_nil (by simp)).2

/-- Every surviving sentence of `split_text`'s sentence pass is clean. -/
lemma sentencesOf_clean {t : List Char} : ∀ s ∈ sentencesOf t, Clean s := by
  intro s hs
  rw [sentencesOf, List.mem_filter] at hs
  obtain ⟨hmem, hne⟩ := hs
  obtain ⟨p, hp, rfl⟩ := List.mem_map.mp hmem
  refine clean_of_pstrip ?_
  intro h0; rw [h0] at hne; simp at hne

lemma sentencesOf_noPS {t : List Char} : ∀ s ∈ sentencesOf t, NoPS s := by
  intro s hs
  rw [sentencesOf, List.mem_filter] at hs
  obtain ⟨p, hp, rfl⟩ := List.mem_map.mp hs.1
  exact noPS_pstrip (reSplit_noPS p hp)

lemma sentencesOf_dropLast_lastOk {t : List Char} :
    ∀ s ∈ (sentencesOf t).dropLast, LastOk s := by
  intro s hs
  have hs2 : s ∈ ((reSplit t).map pstrip).dropLast := mem_dropLast_filter hs
  rw [dropLast_map] at hs2
  obtain ⟨p, hp, rfl⟩ := List.mem_map.mp hs2
  exact lastOk_pstrip (reSplit_noPS p ((reSplit t).dropLast_sublist.mem hp))
    (reSplit_lastOk p hp)

/-- `". ".join(group)` for a nonempty group of sentences: the exact shape
of the `current_chunk` accumulator of `split_text`. -/
def sepJoin : List (List Char) → List Char
  | [] => []
  | [s] => s
  | s :: t :: rest => s ++ sep ++ sepJoin (t :: rest)

lemma sepJoin_cons_of_ne {s : List Char} {g : List (List Char)} (h : g ≠ []) :
    sepJoin (s :: g) = s ++ sep ++ sepJoin g := by
  cases g with
  | nil => exact absurd rfl h
  | cons t r => rfl

lemma clean_sepJoin {g : List (List Char)} (hne : g ≠ []) (h : ∀ s ∈ g, Clean s) :
    Clean (sepJoin g) := by
  induction g with
  | nil => exact absurd rfl hne
  | cons s r ih =>
    cases r with
    | nil => exact h s (by simp)
    | cons t u =>
      rw [sepJoin_cons_of_ne (by simp)]
      exact clean_sep_append (h s (by simp))
        (ih (by simp) (fun x hx => h x (List.mem_cons_of_mem _ hx)))

lemma getLast?_cons_of_ne {α : Type} {c : α} {l : List α} (h : l ≠ []) :
    (c :: l).getLast? = l.getLast? := by
  cases l with
  | nil => exact absurd rfl h
  | cons b t => exact List.getLast?_cons_cons

lemma reSplitGo_skip_eq_norm {r : List Char}
    (h : ∀ c ∈ r.head?, isSpc c = false) :
    reSplitGo [] [] true r = reSplitGo [] [] false r := by
  cases r with
  | nil => rfl
  | cons c rest =>
    have hc : isSpc c = false := h c rfl
    cases h1 : isPunct c with
    | true => rw [reSplitGo_punct _ _ _ _ h1, reSplitGo_punct _ _ _ _ h1]
    | false => rw [reSplitGo_other _ _ _ _ h1 hc, reSplitGo_other _ _ _ _ h1 hc]

/-- Consuming a pattern-free string that does not end in a terminator
just accumulates its characters. -/
lemma reSplitGo_consume :
    ∀ (s pend acc rest : List Char),
      (∀ c ∈ pend, isPunct c = true) →
      NoPS s →
      LastOk s →
      (s = [] → pend = []) →
      (∀ c ∈ s.head?, pend = [] ∨ isSpc c = false) →
      reSplitGo acc pend false (s ++ rest) =
        reSplitGo (s.reverse ++ (pend ++ acc)) [] false rest := by
  intro s
  induction s with
  | nil =>
    intro pend acc rest hpend hnops hlast hnil hhd
    rw [hnil rfl]; simp
  | cons c s' ih =>
    intro pend acc rest hpend hnops hlast hnil hhd
    rw [List.cons_append]
    cases h1 : isPunct c with
    | true =>
      have hs' : s' ≠ [] := by
        intro h0
        subst h0
        have hcon := hlast c rfl
        rw [h1] at hcon; exact Bool.noConfusion hcon
      rw [reSplitGo_punct _ _ _ _ h1]
      rw [ih (c :: pend) acc rest ?_ hnops.tail ?_ (fun h0 => absurd h0 hs') ?_]
      · simp
      · intro d hd
        rcases List.mem_cons.mp hd with h | h
        · subst h; exact h1
        · exact hpend d h
      · intro d hd
        exact hlast d (by rw [getLast?_cons_of_ne hs']; exact hd)
      · intro d hd
        right
        cases s' with
        | nil => simp at hd
        | cons e u =>
          have hde : d = e := by
            rw [List.head?_cons, Option.mem_def, Option.some.injEq] at hd
            exact hd.symm
          subst hde
          have hpair : PSok c d := (List.chain'_cons.mp hnops).1
          cases hsd : isSpc d with
          | false => rfl
          | true => exact absurd ⟨h1, hsd⟩ hpair
    | false =>
      cases h2 : isSpc c with
      | true =>
        have hp0 : pend = [] := by
          rcases hhd c rfl with h | h
          · exact h
          · rw [h2] at h; exact Bool.noConfusion h
        subst hp0
        rw [reSplitGo_spc_norm _ _ h1 h2]
        rw [ih [] (c :: acc) rest (by simp) hnops.tail ?_ (fun _ => rfl) (by simp)]
        · simp
        · intro d hd
          cases hs' : s' with
          | nil => subst hs'; simp at hd
          | cons e u =>
            subst hs'
            rw [← getLast?_cons_of_ne (c := c) (by simp)] at hd
            exact hlast d hd
      | false =>
        rw [reSplitGo_other _ _ _ _ h1 h2]
        rw [ih [] (c :: (pend ++ acc)) rest (by simp) hnops.tail ?_ (fun _ => rfl)
          (by simp)]
        · simp
        · intro d hd
          cases hs' : s' with
          | nil => subst hs'; simp at hd
          | cons e u =>
            subst hs'
            rw [← getLast?_cons_of_ne (c := c) (by simp)] at hd
            exact hlast d hd

/-- Consuming a pattern-free string at the end of the input produces a
single final piece. -/
lemma reSplitGo_final :
    ∀ (s pend acc : List Char),
      (∀ c ∈ pend, isPunct c = true) →
      NoPS s →
      (∀ c ∈ s.head?, pend = [] ∨ isSpc c = false) →
      reSplitGo acc pend false s = [(pend ++ acc).reverse ++ s] := by
  intro s
  induction s with
  | nil =>
    intro pend acc hpend hnops hhd
    rw [reSplitGo_nil]
    by_cases hp : pend = []
    · subst hp; simp
    · rw [isEmpty_false_of_ne hp, if_neg (by simp)]; simp
  | cons c s' ih =>
    intro pend acc hpend hnops hhd
    cases h1 : isPunct c with
    | true =>
      rw [reSplitGo_punct _ _ _ _ h1]
      rw [ih (c :: pend) acc ?_ hnops.tail ?_]
      · simp
      · intro d hd
        rcases List.mem_cons.mp hd with h | h
        · subst h; exact h1
        · exact hpend d h
      · intro d hd
        right
        cases s' with
        | nil => simp at hd
        | cons e u =>
          have hde : d = e := by
            rw [List.head?_cons, Option.mem_def, Option.some.injEq] at hd
            exact hd.symm
          subst hde
          have hpair : PSok c d := (List.chain'_cons.mp hnops).1
          cases hsd : isSpc d with
          | false => rfl
          | true => exact absurd ⟨h1, hsd⟩ hpair
    | false =>
      cases h2 : isSpc c with
      | true =>
        have hp0 : pend = [] := by
          rcases hhd c rfl with h | h
          · exact h
          · rw [h2] at h; exact Bool.noConfusion h
        subst hp0
        rw [reSplitGo_spc_norm _ _ h1 h2]
        rw [ih [] (c :: acc) (by simp) hnops.tail (by simp)]
        simp
      | false =>
        rw [reSplitGo_other _ _ _ _ h1 h2]
        rw [ih [] (c :: (pend ++ acc)) (by simp) hnops.tail (by simp)]
        simp

/-- Round trip: re-splitting a `". "`-joined group of clean,
pattern-free sentences, none of which (except possibly the last) ends
in a terminator, recovers exactly the group. -/
lemma reSplit_sepJoin :
    ∀ (g : List (List Char)),
      g ≠ [] →
      (∀ s ∈ g, Clean s) →
      (∀ s ∈ g, NoPS s) →
      (∀ s ∈ g.dropLast, LastOk s) →
      reSplit (sepJoin g) = g := by
  intro g
  induction g with
  | nil => intro h; exact absurd rfl h
  | cons s r ih =>
    intro hne hclean hnops hlast
    cases r with
    | nil =>
      show reSplitGo [] [] false (sepJoin [s]) = [s]
      have : sepJoin [s] = s := rfl
      rw [this, reSplitGo_final s [] [] (by simp) (hnops s (by simp)) (by simp)]
      simp
    | cons t u =>
      have hsj : sepJoin (s :: t :: u) = s ++ ('.' :: ' ' :: sepJoin (t :: u)) := by
        rw [sepJoin_cons_of_ne (by simp), sep]
        simp
      show reSplitGo [] [] false (sepJoin (s :: t :: u)) = s :: t :: u
      rw [hsj]
      rw [reSplitGo_consume s [] [] _ (by simp) (hnops s (by simp)) ?_ ?_ (by simp)]
      · rw [show '.' :: ' ' :: sepJoin (t :: u) = '.' :: (' ' :: sepJoin (t :: u)) from rfl]
        rw [reSplitGo_punct _ _ _ _ (by decide)]
        rw [reSplitGo_spc_pend _ _ _ _ (by decide) (by decide) (by simp)]
        rw [List.append_nil, List.append_nil, List.reverse_reverse]
        have hcl : Clean (sepJoin (t :: u)) :=
          clean_sepJoin (by simp) (fun x hx => hclean x (List.mem_cons_of_mem _ hx))
        rw [reSplitGo_skip_eq_norm hcl.2.1]
        rw [show reSplitGo [] [] false (sepJoin (t :: u)) = reSplit (sepJoin (t :: u))
          from rfl]
        rw [ih (by simp) (fun x hx => hclean x (List.mem_cons_of_mem _ hx))
          (fun x hx => hnops x (List.mem_cons_of_mem _ hx)) ?_]
        intro x hx
        apply hlast
        rw [dropLast_cons_of_ne (show (t :: u) ≠ [] by simp)]
        exact List.mem_cons_of_mem _ hx
      · apply hlast
        rw [dropLast_cons_of_ne (show (t :: u) ≠ [] by simp)]
        exact List.mem_cons_self _ _
      · intro h0
        exact absurd h0 (hclean s (by simp)).1

/-- The chain of length checks `len(current_chunk) + len(sentence) + 2
<= max_length` that lets `split_text` append each sentence of `tl` in
turn to the growing chunk `cur` without closing it. -/
def appendOk (m : Nat) : List Char → List (List Char) → Prop
  | _, [] => True
  | cur, s :: rest => cur.length + s.length + 2 ≤ m ∧ appendOk m (cur ++ sep ++ s) rest

/-- A group of sentences as accumulated into one chunk by `split_text`:
nonempty, and greedily appendable. -/
def Grp (m : Nat) (g : List (List Char)) : Prop :=
  ∃ hd tl, g = hd :: tl ∧ appendOk m hd tl

lemma not_isEmpty_of_ne {α : Type} {l : List α} (h : l ≠ []) :
    ¬(l.isEmpty = true) := by
  rw [isEmpty_false_of_ne h]
  exact fun hh => Bool.noConfusion hh

lemma sepJoin_glue (a b : List Char) (r : List (List Char)) :
    sepJoin ((a ++ sep ++ b) :: r) = sepJoin (a :: b :: r) := by
  cases r with
  | nil => rfl
  | cons c u =>
    show (a ++ sep ++ b) ++ sep ++ sepJoin (c :: u) =
      a ++ sep ++ (b ++ sep ++ sepJoin (c :: u))
    simp [List.append_assoc]

lemma sepJoin_snoc : ∀ (g : List (List Char)), g ≠ [] → ∀ (s : List Char),
    sepJoin (g ++ [s]) = sepJoin g ++ sep ++ s := by
  intro g
  induction g with
  | nil => intro h; exact absurd rfl h
  | cons a tl ih =>
    intro _ s
    cases tl with
    | nil => rfl
    | cons b u =>
      show a ++ sep ++ sepJoin ((b :: u) ++ [s]) =
        (a ++ sep ++ sepJoin (b :: u)) ++ sep ++ s
      rw [ih (by simp) s]
      simp [List.append_assoc]

lemma appendOk_snoc {m : Nat} :
    ∀ (tl : List (List Char)) (hd s : List Char),
      appendOk m hd tl →
      (sepJoin (hd :: tl)).length + s.length + 2 ≤ m →
      appendOk m hd (tl ++ [s]) := by
  intro tl
  induction tl with
  | nil =>
    intro hd s _ hlen
    exact ⟨hlen, trivial⟩
  | cons t r ih =>
    intro hd s hap hlen
    refine ⟨hap.1, ih (hd ++ sep ++ t) s hap.2 ?_⟩
    rw [sepJoin_glue]; exact hlen

lemma grp_bound {m : Nat} {g : List (List Char)} (h : Grp m g) :
    (sepJoin g).length ≤ m ∨ g.length = 1 := by
  obtain ⟨hd, tl, rfl, hap⟩ := h
  cases tl with
  | nil => right; rfl
  | cons s r =>
    left
    induction r generalizing hd s with
    | nil =>
      obtain ⟨hlen, -⟩ := hap
      rw [sepJoin_cons_of_ne (by simp)]
      show (hd ++ sep ++ sepJoin [s]).length ≤ m
      simp only [sepJoin, List.length_append, sep, List.length_cons, List.length_nil]
      omega
    | cons c u ih =>
      obtain ⟨hlen, hap2⟩ := hap
      have := ih (hd ++ sep ++ s) c hap2
      rw [sepJoin_glue] at this
      exact this

/-- The strip-and-filter preprocessing performed inline by the loop of
`split_text` on the raw sentence list. -/
def cleanup (ss : List (List Char)) : List (List Char) :=
  (ss.map pstrip).filter (fun s => !s.isEmpty)

lemma splitTextGo_cons (m : Nat) (chunks : List (List Char)) (cur s : List Char)
    (rest : List (List Char)) :
    splitTextGo m chunks cur (s :: rest) =
      if (pstrip s).isEmpty then splitTextGo m chunks cur rest
      else if m < cur.length + (pstrip s).length + 2 ∧ cur ≠ [] then
        splitTextGo m (chunks ++ [pstrip cur]) (pstrip s) rest
      else splitTextGo m chunks
        (if cur.isEmpty then pstrip s else cur ++ sep ++ pstrip s) rest := rfl

lemma cleanup_cons (s : List Char) (rest : List (List Char)) :
    cleanup (s :: rest) =
      if (pstrip s).isEmpty then cleanup rest else pstrip s :: cleanup rest := by
  simp only [cleanup, List.map_cons, List.filter_cons]
  cases h : (pstrip s).isEmpty with
  | true => simp [h]
  | false => simp [h]

lemma splitTextGo_cleanup (m : Nat) :
    ∀ (ss chunks : List (List Char)) (cur : List Char),
      splitTextGo m chunks cur ss = splitTextGo m chunks cur (cleanup ss) := by
  intro ss
  induction ss with
  | nil => intro chunks cur; rfl
  | cons s rest ih =>
    intro chunks cur
    rw [splitTextGo_cons, cleanup_cons]
    by_cases h : (pstrip s).isEmpty = true
    · rw [if_pos h, if_pos h, ih]
    · rw [if_neg h, if_neg h]
      rw [splitTextGo_cons, pstrip_idem]
      rw [if_neg h]
      by_cases hc : m < cur.length + (pstrip s).length + 2 ∧ cur ≠ []
      · rw [if_pos hc, if_pos hc, ih]
      · rw [if_neg hc, if_neg hc, ih]

/-- Main characterisation of the chunking loop run from an open group
`gcur`: the produced chunks are `". "`-joins of a partition of
`gcur ++ ss` into greedily built groups. -/
lemma splitTextGo_grp (m : Nat) :
    ∀ (ss gcur chunks : List (List Char)) (_ : ∀ s ∈ ss, Clean s)
      (_ : ∀ s ∈ gcur, Clean s) (_ : gcur ≠ []) (_ : Grp m gcur),
      ∃ gs : List (List (List Char)),
        splitTextGo m chunks (sepJoin gcur) ss = chunks ++ gs.map sepJoin ∧
        gs.flatten = gcur ++ ss ∧
        gs ≠ [] ∧
        (∀ g ∈ gs, (∀ s ∈ g, Clean s) ∧ Grp m g) := by
  intro ss
  induction ss with
  | nil =>
    intro gcur chunks _ hgc hgne hgrp
    have hcl : Clean (sepJoin gcur) := clean_sepJoin hgne hgc
    refine ⟨[gcur], ?_, by simp, by simp, ?_⟩
    · show (if (pstrip (sepJoin gcur)).isEmpty then chunks
        else chunks ++ [pstrip (sepJoin gcur)]) = chunks ++ [gcur].map sepJoin
      rw [pstrip_eq_self hcl, if_neg (not_isEmpty_of_ne hcl.1)]
      simp
    · intro g hg
      rw [List.mem_singleton] at hg; subst hg
      exact ⟨hgc, hgrp⟩
  | cons s rest ih =>
    intro gcur chunks hss hgc hgne hgrp
    have hscl : Clean s := hss s (by simp)
    have hcl : Clean (sepJoin gcur) := clean_sepJoin hgne hgc
    have hrest : ∀ x ∈ rest, Clean x := fun x hx => hss x (List.mem_cons_of_mem _ hx)
    rw [splitTextGo_cons, pstrip_eq_self hscl, if_neg (not_isEmpty_of_ne hscl.1)]
    by_cases hlen : m < (sepJoin gcur).length + s.length + 2
    · rw [if_pos ⟨hlen, hcl.1⟩, pstrip_eq_self hcl]
      obtain ⟨gs', heq, hflat, hne, hprops⟩ :=
        ih [s] (chunks ++ [sepJoin gcur]) hrest
          (by intro x hx; rw [List.mem_singleton] at hx; subst hx; exact hscl)
          (by simp) ⟨s, [], rfl, trivial⟩
      refine ⟨gcur :: gs', ?_, ?_, by simp, ?_⟩
      · rw [show splitTextGo m (chunks ++ [sepJoin gcur]) s rest =
            chunks ++ [sepJoin gcur] ++ List.map sepJoin gs' from heq]
        simp
      · rw [List.flatten_cons, hflat]; rfl
      · intro g hg
        rcases List.mem_cons.mp hg with h | h
        · subst h; exact ⟨hgc, hgrp⟩
        · exact hprops g h
    · rw [if_neg (by rintro ⟨h1, -⟩; exact hlen h1),
        if_neg (not_isEmpty_of_ne hcl.1)]
      have hsnoc : sepJoin gcur ++ sep ++ s = sepJoin (gcur ++ [s]) :=
        (sepJoin_snoc gcur hgne s).symm
      rw [hsnoc]
      obtain ⟨hd, tl, hghd, hap⟩ := hgrp
      obtain ⟨gs', heq, hflat, hne, hprops⟩ :=
        ih (gcur ++ [s]) chunks hrest
          (by
            intro x hx
            rcases List.mem_append.mp hx with h | h
            · exact hgc x h
            · rw [List.mem_singleton] at h; subst h; exact hscl)
          (by simp)
          (by
            refine ⟨hd, tl ++ [s], by rw [hghd]; simp, ?_⟩
            refine appendOk_snoc tl hd s hap ?_
            rw [← hghd]
            omega)
      refine ⟨gs', heq, ?_, hne, hprops⟩
      rw [hflat]; simp

/-- `split_text` over a text with at least one surviving sentence:
existence of the greedy group partition. -/
lemma split_text_grp {t : List Char} {m : Nat} (hne : sentencesOf t ≠ []) :
    ∃ gs : List (List (List Char)),
      split_text t m = gs.map sepJoin ∧
      gs.flatten = sentencesOf t ∧
      gs ≠ [] ∧
      (∀ g ∈ gs, (∀ s ∈ g, Clean s) ∧ Grp m g) := by
  have hstep : split_text t m = splitTextGo m [] [] (sentencesOf t) := by
    rw [split_text, splitTextGo_cleanup]
    rfl
  rcases hsent : sentencesOf t with _ | ⟨s, rest⟩
  · exact absurd hsent hne
  have hclean : ∀ x ∈ sentencesOf t, Clean x := sentencesOf_clean
  rw [hsent] at hclean
  have hscl : Clean s := hclean s (by simp)
  rw [hstep, hsent, splitTextGo_cons, pstrip_eq_self hscl,
    if_neg (not_isEmpty_of_ne hscl.1),
    if_neg (by rintro ⟨-, h⟩; exact h rfl)]
  rw [show (if ([] : List Char).isEmpty then s else [] ++ sep ++ s) = sepJoin [s] from rfl]
  obtain ⟨gs, heq, hflat, hne2, hprops⟩ :=
    splitTextGo_grp m rest [s] []
      (fun x hx => hclean x (List.mem_cons_of_mem _ hx))
      (by intro x hx; rw [List.mem_singleton] at hx; subst hx; exact hscl)
      (by simp) ⟨s, [], rfl, trivial⟩
  refine ⟨gs, by rw [heq]; simp, by rw [hflat]; rfl, hne2, hprops⟩

lemma split_text_of_no_sentence {t : List Char} {m : Nat}
    (h : sentencesOf t = []) : split_text t m = [] := by
  have hstep : split_text t m = splitTextGo m [] [] (sentencesOf t) := by
    rw [split_text, splitTextGo_cleanup]
    rfl
  rw [hstep, h]
  rfl

/-- When every length check passes, the chunking loop run from `cur`
never closes the chunk and flushes a single joined chunk at the end. -/
lemma splitTextGo_single (m : Nat) :
    ∀ (tl : List (List Char)) (cur : List Char),
      Clean cur →
      (∀ s ∈ tl, Clean s) →
      appendOk m cur tl →
      splitTextGo m [] cur tl = [sepJoin (cur :: tl)] := by
  intro tl
  induction tl with
  | nil =>
    intro cur hcur _ _
    show (if (pstrip cur).isEmpty then [] else [] ++ [pstrip cur]) = [sepJoin [cur]]
    rw [pstrip_eq_self hcur, if_neg (not_isEmpty_of_ne hcur.1)]
    rfl
  | cons s r ih =>
    intro cur hcur htl hap
    have hscl : Clean s := htl s (by simp)
    rw [splitTextGo_cons, pstrip_eq_self hscl, if_neg (not_isEmpty_of_ne hscl.1),
      if_neg (by rintro ⟨h1, -⟩; have := hap.1; omega),
      if_neg (not_isEmpty_of_ne hcur.1)]
    rw [ih (cur ++ sep ++ s) (clean_sep_append hcur hscl)
      (fun x hx => htl x (List.mem_cons_of_mem _ hx)) hap.2]
    rw [sepJoin_glue]

lemma mem_dropLast_flatten {α : Type} {gs : List (List α)} {g : List α} {x : α}
    (hg : g ∈ gs) (hne : g ≠ []) (hx : x ∈ g.dropLast) :
    x ∈ gs.flatten.dropLast := by
  obtain ⟨l1, l2, rfl⟩ := List.append_of_mem hg
  rcases hfl : l2.flatten with _ | ⟨b, l2f⟩
  · rcases List.eq_nil_or_concat g with h0 | ⟨g0, a, hga⟩
    · exact absurd h0 hne
    rw [List.concat_eq_append] at hga
    have hflt : (l1 ++ g :: l2).flatten = l1.flatten ++ g := by
      rw [List.flatten_append, List.flatten_cons, hfl, List.append_nil]
    rw [hflt, hga, ← List.append_assoc, List.dropLast_concat]
    have hx0 : x ∈ g0 := by rw [hga, List.dropLast_concat] at hx; exact hx
    exact List.mem_append.mpr (Or.inr hx0)
  · have hflt : (l1 ++ g :: l2).flatten = (l1.flatten ++ g) ++ (b :: l2f) := by
      rw [List.flatten_append, List.flatten_cons, hfl, List.append_assoc]
    rw [hflt, List.dropLast_append_cons]
    exact List.mem_append.mpr
      (Or.inl (List.mem_append.mpr (Or.inr (g.dropLast_sublist.mem hx))))

/-- C1 (amended).  For every `max_length > 0` and every input whose
sentence pass yields at least one nonempty stripped sentence,
`split_text(text, max_length)` returns a non-empty ordered sequence of
non-empty chunks; the chunks are the `". "`-joins of a partition of the
input's sentence sequence into consecutive nonempty groups (so every
sentence appears exactly once, in original order), and every chunk
either fits in `max_length` or is a single (oversized) sentence.
The original claim's unconditional non-emptiness fails for inputs with
no surviving sentence (see the counterexample), which is the only
weakening made here. -/
theorem claim1_split_text_amended (t : List Char) (m : Nat) (_hm : 0 < m)
    (hne : sentencesOf t ≠ []) :
    split_text t m ≠ [] ∧
    (∀ c ∈ split_text t m, c ≠ []) ∧
    ∃ gs : List (List (List Char)),
      split_text t m = gs.map sepJoin ∧
      gs.flatten = sentencesOf t ∧
      (∀ g ∈ gs, g ≠ []) ∧
      (∀ g ∈ gs, (sepJoin g).length ≤ m ∨ g.length = 1) := by
  obtain ⟨gs, heq, hflat, hgne, hprops⟩ := split_text_grp (m := m) hne
  have hgne' : ∀ g ∈ gs, g ≠ [] := by
    intro g hg
    obtain ⟨hd, tl, rfl, -⟩ := (hprops g hg).2
    simp
  refine ⟨?_, ?_, gs, heq, hflat, hgne', ?_⟩
  · rw [heq]
    intro h0
    exact hgne (List.map_eq_nil_iff.mp h0)
  · intro c hc
    rw [heq] at hc
    obtain ⟨g, hg, rfl⟩ := List.mem_map.mp hc
    exact (clean_sepJoin (hgne' g hg) (hprops g hg).1).1
  · intro g hg
    exact grp_bound (hprops g hg).2

/-- C1 counterexample.  The claim as stated promises a non-empty chunk
sequence for every input text and `max_length > 0`; on the input
`". "` (and likewise `""`), with `max_length = 5 > 0`, `split_text`
returns the empty sequence, because the sentence pass yields no
nonempty sentence. -/
theorem claim1_counterexample :
    0 < 5 ∧ split_text (String.data ". ") 5 = [] ∧
      split_text (String.data "") 5 = [] := by
  refine ⟨by decide, by decide, by decide⟩

/-- C1 witness: the amended claim applied to the concrete text
`"Hello. World."` with `max_length = 30`. -/
theorem claim1_witness :
    split_text (String.data "Hello. World.") 30 ≠ [] :=
  (claim1_split_text_amended (String.data "Hello. World.") 30 (by decide)
    (by decide)).1

/-- C2 (confirmed).  Re-chunking any chunk produced by
`split_text(t, max_length)` with the same `max_length` returns exactly
that chunk as a singleton sequence. -/
theorem claim2_split_text_idempotent (t : List Char) (m : Nat) (c : List Char)
    (hc : c ∈ split_text t m) : split_text c m = [c] := by
  by_cases hne : sentencesOf t = []
  · rw [split_text_of_no_sentence hne] at hc; simp at hc
  obtain ⟨gs, heq, hflat, -, hprops⟩ := split_text_grp (m := m) hne
  rw [heq] at hc
  obtain ⟨g, hg, rfl⟩ := List.mem_map.mp hc
  obtain ⟨hgclean, hgrp⟩ := hprops g hg
  have hgne : g ≠ [] := by obtain ⟨hd, tl, rfl, -⟩ := hgrp; simp
  have hmem : ∀ s ∈ g, s ∈ sentencesOf t := by
    intro s hs
    rw [← hflat]
    exact List.mem_flatten.mpr ⟨g, hg, hs⟩
  have hnops : ∀ s ∈ g, NoPS s := fun s hs => sentencesOf_noPS s (hmem s hs)
  have hlast : ∀ s ∈ g.dropLast, LastOk s := by
    intro s hs
    apply sentencesOf_dropLast_lastOk
    rw [← hflat]
    exact mem_dropLast_flatten hg hgne hs
  have hsplit : reSplit (sepJoin g) = g := reSplit_sepJoin g hgne hgclean hnops hlast
  obtain ⟨hd, tl, hghd, hap⟩ := hgrp
  show splitTextGo m [] [] (reSplit (sepJoin g)) = [sepJoin g]
  rw [hsplit, hghd]
  have hhd : Clean hd := hgclean hd (by rw [hghd]; simp)
  have htlclean : ∀ s ∈ tl, Clean s := fun s hs =>
    hgclean s (by rw [hghd]; exact List.mem_cons_of_mem _ hs)
  rw [splitTextGo_cons, pstrip_eq_self hhd, if_neg (not_isEmpty_of_ne hhd.1),
    if_neg (by rintro ⟨-, h⟩; exact h rfl)]
  rw [show (if ([] : List Char).isEmpty then hd else [] ++ sep ++ hd) = hd from rfl]
  rw [splitTextGo_single m tl hd hhd htlclean hap]

/-- C2 witness: the chunk `"Hello. World."` produced at
`max_length = 30` re-chunks to itself. -/
theorem claim2_witness :
    split_text (String.data "Hello. World.") 30 = [String.data "Hello. World."] :=
  claim2_split_text_idempotent (String.data "Hello. World.") 30
    (String.data "Hello. World.") (by decide)

/-- Model of a parsed HTML element (a BeautifulSoup `Tag`): tag name,
class list (the multi-valued `class` attribute), the element's text
content (`.text` / `get_text()`, stored flattened), its `href`
attribute when present, and child elements in document order.  The
document root (`BeautifulSoup` object) is itself an `Html` node whose
children are the top-level elements; selector searches on a node cover
its descendants only, as in bs4.  A found `Tag` is always truthy
(`Tag.__bool__` returns `True`), so Python `if tag:` is `Option.isSome`
of the lookup. -/
inductive Html : Type where
  | el (tag : String) (classes : List String) (txt : String)
      (href : Option String) (children : List Html)
deriving Repr

def Html.tagOf : Html → String
  | .el t _ _ _ _ => t

def Html.classesOf : Html → List String
  | .el _ cs _ _ _ => cs

def Html.txtOf : Html → String
  | .el _ _ tx _ _ => tx

def Html.hrefOf : Html → Option String
  | .el _ _ _ hr _ => hr

def Html.childrenOf : Html → List Html
  | .el _ _ _ _ ch => ch

/-- A CSS selector of the shapes used by this repository: a tag name
with an optional single class (`div.article-content`, `article`,
`a.card`, `h3`, ...).  bs4 `find(tag, class_=c)` matches the same way. -/
structure Selector : Type where
  tag : String
  cls : Option String
deriving Repr, DecidableEq

def matchesSel (s : Selector) (h : Html) : Bool :=
  h.tagOf == s.tag &&
    (match s.cls with
     | none => true
     | some c => h.classesOf.contains c)

mutual

/-- First descendant-or-self element satisfying `p`, in document
(pre-)order. -/
def findElemIn (p : Html → Bool) : Html → Option Html
  | .el t cs tx hr ch =>
    if p (.el t cs tx hr ch) then some (.el t cs tx hr ch)
    else findElemList p ch

def findElemList (p : Html → Bool) : List Html → Option Html
  | [] => none
  | h :: rest =>
    match findElemIn p h with
    | some r => some r
    | none => findElemList p rest

end

/-- bs4 `node.select_one(sel)` / `node.find(tag, class_=c)`: first
matching descendant in document order (the node itself excluded). -/
def findElem (p : Html → Bool) (h : Html) : Option Html :=
  findElemList p h.childrenOf

def selectOne (s : Selector) (h : Html) : Option Html :=
  findElem (matchesSel s) h

mutual

/-- All descendant-or-self elements satisfying `p`, in document
(pre-)order, nested matches included. -/
def collectElemIn (p : Html → Bool) : Html → List Html
  | .el t cs tx hr ch =>
    (if p (.el t cs tx hr ch) then [Html.el t cs tx hr ch] else []) ++
      collectElemList p ch

def collectElemList (p : Html → Bool) : List Html → List Html
  | [] => []
  | h :: rest => collectElemIn p h ++ collectElemList p rest

end

/-- bs4 `node.select(sel)` / `node.find_all(tag, class_=c)`. -/
def collectElems (p : Html → Bool) (h : Html) : List Html :=
  collectElemList p h.childrenOf

def selectAll (s : Selector) (h : Html) : List Html :=
  collectElems (matchesSel s) h

/-- bs4 `find_all('p')` under a container: all descendant `p` elements
in document order. -/
def findPs (h : Html) : List Html := selectAll ⟨"p", none⟩ h

/-- bs4 `find_all('a', href=True)`. -/
def findAnchorsWithHref (h : Html) : List Html :=
  collectElems (fun a => a.tagOf == "a" && a.hrefOf.isSome) h

/-- Python `str.strip()` on the `String` wrapper. -/
def sstrip (s : String) : String := ⟨pstrip s.data⟩

/-- The soft-failure sentinel of `get_column_content`. -/
def sentinel : String := "Content could not be extracted"

/-- `NEWS_SOURCE['selectors']['content']` from `config.py`; the same
five selectors are hard-coded in `news_tts_app.get_column_content`. -/
def contentSelectors : List Selector :=
  [⟨"div", some "article-content"⟩, ⟨"div", some "content"⟩,
   ⟨"div", some "post-content"⟩, ⟨"article", none⟩,
   ⟨"div", some "entry-content"⟩]

/-- The selector loop of `get_column_content`: try selectors in order,
and on the first one whose `select_one` finds an element, join that
container's paragraph texts (each stripped, empty ones dropped) with
newline and stop - even when that join is empty. -/
def extractLoop : List Selector → Html → String
  | [], _ => ""
  | s :: rest, soup =>
    match selectOne s soup with
    | some div =>
      String.intercalate "\n"
        (((findPs div).map (fun p => sstrip p.txtOf)).filter (fun t => !t.isEmpty))
    | none => extractLoop rest soup

/-- The pure part of `get_column_content` (both apps): run the selector
loop and replace an empty result by the sentinel.  This function is
total: under a parsed page it never raises. -/
def extractContent (sels : List Selector) (soup : Html) : String :=
  let content := extractLoop sels soup
  if content = "" then sentinel else content

def get_column_content_pure (soup : Html) : String :=
  extractContent contentSelectors soup

/-- `get_column_content(url)`: fetch then extract; a request (or any
other) exception is caught and returned as `None`. -/
def get_column_content (fetchPage : String → Option Html) (url : String) :
    Option String :=
  (fetchPage url).map get_column_content_pure

/-- `hay` starts with `pat`. -/
def beginsWith : List Char → List Char → Bool
  | _, [] => true
  | [], _ :: _ => false
  | c :: cs, d :: ds => c == d && beginsWith cs ds

/-- Python `pat in hay` (substring containment). -/
def containsSeq : List Char → List Char → Bool
  | [], pat => beginsWith [] pat
  | c :: t, pat => beginsWith (c :: t) pat || containsSeq t pat

/-- Python `s.startswith(pre)`. -/
def pyStartsWith (s pre : String) : Bool := beginsWith s.data pre.data

/-- Python `s.endswith(suf)`. -/
def pyEndsWith (s suf : String) : Bool :=
  beginsWith s.data.reverse suf.data.reverse

/-- `NEWS_SOURCE['selectors']` from `config.py`; `news_tts_app.py` and
`scrape_dailysabah.py` hard-code the same shapes via `find`. -/
def selArticleCards : Selector := ⟨"div", some "article-card"⟩

def selTitle : Selector := ⟨"h3", none⟩

def selAuthor : Selector := ⟨"div", some "author-info"⟩

def selLink : Selector := ⟨"a", some "card"⟩

def dsBase : String := "https://www.dailysabah.com"

def dsListingUrl : String := "https://www.dailysabah.com/columns"

/-- An article record as assembled by the listers (the `date` field is
`datetime.now().strftime('%Y-%m-%d')`, passed in as `dateStr`). -/
structure Article : Type where
  title : String
  author : String
  url : String
  content : String
  date : String
deriving Repr, DecidableEq

/-- `full_url = link if link.startswith('http') else
f"https://www.dailysabah.com{link}"`. -/
def enhResolve (link : String) : String :=
  if pyStartsWith link "http" then link else dsBase ++ link

/-- `author_elem.text.strip() if author_elem else 'Unknown'`. -/
def enhAuthorOf (card : Html) : String :=
  match selectOne selAuthor card with
  | some aEl => sstrip aEl.txtOf
  | none => "Unknown"

/-- The body of the enhanced primary loop for one card: require title
and link sub-elements; `link_elem.get('href')` returning `None` makes
`link.startswith` raise (`.error`, caught by the outer handler);
fetch+extract the linked page and accept the card exactly when the
content is truthy and differs from the sentinel. -/
def enhCardStep (fetchPage : String → Option Html) (dateStr : String)
    (card : Html) : Except Unit (Option Article) :=
  match selectOne selTitle card, selectOne selLink card with
  | some tEl, some lEl =>
    match lEl.hrefOf with
    | none => .error ()
    | some link =>
      let fullUrl := enhResolve link
      match get_column_content fetchPage fullUrl with
      | some s =>
        if s ≠ "" ∧ s ≠ sentinel then
          .ok (some ⟨sstrip tEl.txtOf, enhAuthorOf card, fullUrl, s, dateStr⟩)
        else .ok none
      | none => .ok none
  | _, _ => .ok none

/-- The enhanced primary (article-card) loop: process cards in order,
appending accepted articles, and break as soon as
`len(columns_data) >= max_columns_per_day`. -/
def enhPrimaryLoop (fetchPage : String → Option Html) (dateStr : String)
    (cap : Nat) : List Html → List Article → Except Unit (List Article)
  | [], acc => .ok acc
  | card :: rest, acc =>
    match enhCardStep fetchPage dateStr card with
    | .error e => .error e
    | .ok none => enhPrimaryLoop fetchPage dateStr cap rest acc
    | .ok (some art) =>
      let acc2 := acc ++ [art]
      if cap ≤ acc2.length then .ok acc2
      else enhPrimaryLoop fetchPage dateStr cap rest acc2

/-- The enhanced fallback loop over `find_all('a', href=True)`: keep
anchors whose href is truthy, contains `/columns/` and does not end
with `/columns`, whose visible text is longer than 10 characters; then
fetch, filter on the sentinel, and stop at the cap. -/
def enhFallbackLoop (fetchPage : String → Option Html) (dateStr : String)
    (cap : Nat) : List Html → List Article → List Article
  | [], acc => acc
  | a :: rest, acc =>
    match a.hrefOf with
    | some href =>
      if href ≠ "" ∧ containsSeq href.data "/columns/".data = true ∧
          ¬pyEndsWith href "/columns" = true then
        let title := sstrip a.txtOf
        if 10 < title.length then
          let fullUrl := enhResolve href
          match get_column_content fetchPage fullUrl with
          | some s =>
            if s ≠ "" ∧ s ≠ sentinel then
              let acc2 := acc ++ [⟨title, "Unknown", fullUrl, s, dateStr⟩]
              if cap ≤ acc2.length then acc2
              else enhFallbackLoop fetchPage dateStr cap rest acc2
            else enhFallbackLoop fetchPage dateStr cap rest acc
          | none => enhFallbackLoop fetchPage dateStr cap rest acc
        else enhFallbackLoop fetchPage dateStr cap rest acc
      else enhFallbackLoop fetchPage dateStr cap rest acc
    | none => enhFallbackLoop fetchPage dateStr cap rest acc

/-- `NewsTTSApp.get_daily_sabah_columns` of `news_tts_app_enhanced.py`:
a failed listing fetch (or any exception escaping the loops, e.g. the
href crash) returns `[]`; otherwise use the card loop, or the anchor
fallback when no cards were found.  `cap` is
`FILE_CONFIG['max_columns_per_day']` (5 in `config.py`). -/
def get_daily_sabah_columns_enhanced (fetchPage : String → Option Html)
    (dateStr : String) (cap : Nat) : List Article :=
  match fetchPage dsListingUrl with
  | none => []
  | some soup =>
    let cards := selectAll selArticleCards soup
    if cards.isEmpty then
      enhFallbackLoop fetchPage dateStr cap (findAnchorsWithHref soup) []
    else
      match enhPrimaryLoop fetchPage dateStr cap cards [] with
      | .ok l => l
      | .error _ => []

/-- The body of the basic card loop
(`news_tts_app.NewsTTSApp.get_daily_sabah_columns`) for one card:
title, author AND link sub-elements are all required;
`link_tag['href']` raises `KeyError` when absent (`.error`, caught by
the outer handler); a card is accepted whenever the content is truthy -
the sentinel string is truthy, so it is accepted too. -/
def basicCardStep (fetchPage : String → Option Html) (dateStr : String)
    (card : Html) : Except Unit (Option Article) :=
  match selectOne selTitle card, selectOne selAuthor card,
      selectOne selLink card with
  | some tEl, some aEl, some lEl =>
    match lEl.hrefOf with
    | none => .error ()
    | some link =>
      let fullUrl := enhResolve link
      match get_column_content fetchPage fullUrl with
      | some s =>
        if s ≠ "" then
          .ok (some ⟨sstrip tEl.txtOf, sstrip aEl.txtOf, fullUrl, s, dateStr⟩)
        else .ok none
      | none => .ok none
  | _, _, _ => .ok none

/-- The card loop of the basic lister: process every card (no early
stop), collecting accepted articles. -/
def basicLoop (fetchPage : String → Option Html) (dateStr : String) :
    List Html → List Article → Except Unit (List Article)
  | [], acc => .ok acc
  | card :: rest, acc =>
    match basicCardStep fetchPage dateStr card with
    | .error e => .error e
    | .ok none => basicLoop fetchPage dateStr rest acc
    | .ok (some art) => basicLoop fetchPage dateStr rest (acc ++ [art])

/-- `news_tts_app.NewsTTSApp.get_daily_sabah_columns`: collect over all
cards (no early stop), then `return columns_data[:5]`. -/
def get_daily_sabah_columns_basic (fetchPage : String → Option Html)
    (dateStr : String) : List Article :=
  match fetchPage dsListingUrl with
  | none => []
  | some soup =>
    match basicLoop fetchPage dateStr (selectAll selArticleCards soup) [] with
    | .ok l => l.take 5
    | .error _ => []

/-- An item of `scrape_dailysabah.get_daily_sabah_columns` (its content
may be `None`, and it is appended without any check). -/
structure DSItem : Type where
  title : String
  author : String
  link : String
  content : Option String
deriving Repr, DecidableEq

/-- `scrape_dailysabah.get_column_content`: only `div.article-content`,
paragraphs joined without dropping empties, `None` when the container
is missing; exceptions are NOT caught and propagate. -/
def ds_get_column_content (fetchPage : String → Option Html) (url : String) :
    Except Unit (Option String) :=
  match fetchPage url with
  | none => .error ()
  | some soup =>
    .ok (match selectOne ⟨"div", some "article-content"⟩ soup with
      | some div =>
        some (String.intercalate "\n" ((findPs div).map (fun p => sstrip p.txtOf)))
      | none => none)

def scrape_ds_loop (fetchPage : String → Option Html) :
    List Html → List DSItem → Except Unit (List DSItem)
  | [], acc => .ok acc
  | card :: rest, acc =>
    match selectOne selTitle card, selectOne selAuthor card,
        selectOne selLink card with
    | some tEl, some aEl, some lEl =>
      match lEl.hrefOf with
      | none => .error ()
      | some link =>
        match ds_get_column_content fetchPage link with
        | .error e => .error e
        | .ok content =>
          scrape_ds_loop fetchPage rest
            (acc ++ [⟨sstrip tEl.txtOf, sstrip aEl.txtOf, link, content⟩])
    | _, _, _ => scrape_ds_loop fetchPage rest acc

/-- `scrape_dailysabah.get_daily_sabah_columns` (no exception handling
at all: any failure propagates out). -/
def get_daily_sabah_columns_ds (fetchPage : String → Option Html) :
    Except Unit (List DSItem) :=
  match fetchPage dsListingUrl with
  | none => .error ()
  | some soup => scrape_ds_loop fetchPage (selectAll selArticleCards soup) []

def riktBase : String := "https://riktpunkt.nu/"

/-- Python `str.rstrip('/')`. -/
def rstripSlash (s : String) : String :=
  ⟨(s.data.reverse.dropWhile (fun c => c == '/')).reverse⟩

/-- Match of `/(\d{4})/(\d{2})/` at the head of the list, returning the
two digit groups. -/
def datePatAt : List Char → Option (List Char × List Char)
  | '/' :: a :: b :: c :: d :: '/' :: e :: f :: '/' :: _ =>
    if a.isDigit && b.isDigit && c.isDigit && d.isDigit && e.isDigit && f.isDigit
    then some ([a, b, c, d], [e, f])
    else none
  | _ => none

/-- `re.search(r'/(\d{4})/(\d{2})/', s)`: leftmost match. -/
def findDatePat : List Char → Option (List Char × List Char)
  | [] => none
  | c :: t =>
    match datePatAt (c :: t) with
    | some r => some r
    | none => findDatePat t

def hasDatePat (s : String) : Bool := (findDatePat s.data).isSome

/-- The URL-collection loop of `scrape_news`: anchors with a truthy
href matching the dated-path pattern, relative ones resolved against
`base_url.rstrip('/')`, deduplicated in first-seen order. -/
def riktCollectUrls : List Html → List String → List String
  | [], acc => acc
  | a :: rest, acc =>
    match a.hrefOf with
    | some href =>
      if href ≠ "" ∧ hasDatePat href = true then
        let h2 := if pyStartsWith href "/" then rstripSlash riktBase ++ href else href
        if h2 ∈ acc then riktCollectUrls rest acc
        else riktCollectUrls rest (acc ++ [h2])
      else riktCollectUrls rest acc
    | none => riktCollectUrls rest acc

def isDash (c : Char) : Bool := c == '-' || c == '–' || c == '|'

/-- Does `\s*[-–|]\s*RiktpunKt.*$` match at the head of the string? -/
def cutMatchAt (s : List Char) : Bool :=
  match s.dropWhile isSpc with
  | c :: r => isDash c && beginsWith (r.dropWhile isSpc) "RiktpunKt".data
  | [] => false

/-- `re.sub(r'\s*[-–|]\s*RiktpunKt.*$', '', title)`: drop everything
from the leftmost match on. -/
def titleCut : List Char → List Char
  | [] => []
  | c :: r => if cutMatchAt (c :: r) then [] else c :: titleCut r

def riktCategories : List String :=
  ["UTRIKES", "INRIKES", "FACKLIGT", "EKONOMI", "KULTUR"]

/-- The category scan of `extract_article_content`: the first pattern
that occurs in the page text, else `""`. -/
def riktCategoryOf (pageText : String) : String :=
  match riktCategories.find? (fun p => containsSeq pageText.data p.data) with
  | some p => p
  | none => ""

/-- The title extraction of `extract_article_content`: `h1` text, else
the `<title>` text with the site-name suffix removed, else `""`. -/
def riktTitleOf (soup : Html) : String :=
  match selectOne ⟨"h1", none⟩ soup with
  | some h => sstrip h.txtOf
  | none =>
    match selectOne ⟨"title", none⟩ soup with
    | some t => ⟨titleCut (pstrip t.txtOf.data)⟩
    | none => ""

def riktDateOf (url : String) : String :=
  match findDatePat url.data with
  | some (y, mth) => (⟨y⟩ : String) ++ "-" ++ (⟨mth⟩ : String)
  | none => ""

/-- `find("div", class_=re.compile(r"content|article|post"))`: a `div`
one of whose classes contains one of the three substrings. -/
def classLike (h : Html) : Bool :=
  h.tagOf == "div" && h.classesOf.any (fun c =>
    containsSeq c.data "content".data || containsSeq c.data "article".data ||
      containsSeq c.data "post".data)

def riktSkipTags : List String := ["nav", "header", "footer", "aside", "script", "style"]

mutual

/-- `find_all("p")` after `decompose()` of navigation chrome: collect
descendant `p` elements, skipping removed subtrees entirely. -/
def collectPsSkipIn : Html → List Html
  | .el t cs tx hr ch =>
    if riktSkipTags.contains t then []
    else (if t == "p" then [Html.el t cs tx hr ch] else []) ++ collectPsSkipList ch

def collectPsSkipList : List Html → List Html
  | [] => []
  | h :: rest => collectPsSkipIn h ++ collectPsSkipList rest

end

def collectPsSkip (h : Html) : List Html := collectPsSkipList h.childrenOf

/-- Raw content of `extract_article_content`: the class-matched `div`'s
text, else the `"\n\n"`-join of stripped paragraphs longer than 50. -/
def riktContent0 (soup : Html) : String :=
  match findElem classLike soup with
  | some d => sstrip d.txtOf
  | none =>
    String.intercalate "\n\n"
      (((collectPsSkip soup).map (fun p => sstrip p.txtOf)).filter
        (fun t => !t.isEmpty && 50 < t.length))

/-- `re.sub(r'\s+', ' ', content)`: collapse each whitespace run to a
single space. -/
def collapseWSGo (prevSpc : Bool) : List Char → List Char
  | [] => []
  | c :: r =>
    if isSpc c then
      (if prevSpc then collapseWSGo true r else ' ' :: collapseWSGo true r)
    else c :: collapseWSGo false r

def collapseWS (s : List Char) : List Char := collapseWSGo false s

/-- Index (from the front) of the last `'\n'` inside the maximal
whitespace prefix of `r`, if any: the backtracked end of `\n\s*\n`. -/
def lastNLIdx (r : List Char) : Option Nat :=
  let w := r.takeWhile isSpc
  match w.reverse.findIdx? (fun c => c == '\n') with
  | some j => some (w.length - 1 - j)
  | none => none

/-- `re.sub(r'\n\s*\n', '\n\n', content)`: leftmost non-overlapping
matches, each replaced by two newlines, scanning resuming after the
match. -/
def subNNGo : List Char → List Char
  | [] => []
  | c :: r =>
    if c = '\n' then
      match h : lastNLIdx r with
      | some i => '\n' :: '\n' :: subNNGo (r.drop (i + 1))
      | none => c :: subNNGo r
    else c :: subNNGo r
termination_by l => l.length
decreasing_by
  · simp only [List.length_cons, List.length_drop]
    omega
  · simp
  · simp

structure RiktArticle : Type where
  title : String
  category : String
  date : String
  url : String
  content : String
  word_count : Nat
deriving Repr, DecidableEq

/-- `len(content.split())`: number of maximal non-whitespace runs. -/
def wordCountGo (inWord : Bool) : List Char → Nat
  | [] => 0
  | c :: r =>
    if isSpc c then wordCountGo false r
    else (if inWord then 0 else 1) + wordCountGo true r

def wordCount (s : String) : Nat := wordCountGo false s.data

/-- `scrape_riktpunkt.extract_article_content` (the `scraped_at`
timestamp, an I/O value, is omitted from the record). -/
def extract_article_content (soup : Html) (url : String) : Option RiktArticle :=
  let title := riktTitleOf soup
  let category := riktCategoryOf soup.txtOf
  let date := riktDateOf url
  let content1 : String := ⟨pstrip (collapseWS (riktContent0 soup).data)⟩
  let content2 : String := ⟨subNNGo content1.data⟩
  if title = "" ∨ content2.length < 100 then none
  else some ⟨title, category, date, url, content2, wordCount content2⟩

/-- The per-article loop of `scrape_news`: a request error fetching one
article (or a `None` extraction) skips that article and continues. -/
def riktLoop (fetchPage : String → Option Html) :
    List String → List RiktArticle → List RiktArticle
  | [], acc => acc
  | u :: rest, acc =>
    match fetchPage u with
    | none => riktLoop fetchPage rest acc
    | some soup =>
      match extract_article_content soup u with
      | some art => riktLoop fetchPage rest (acc ++ [art])
      | none => riktLoop fetchPage rest acc

/-- `scrape_riktpunkt.scrape_news` (its return value; `save_results`
file output is I/O and omitted): a failure fetching the main page
returns `[]`; otherwise scrape the first 10 collected URLs. -/
def scrape_news (fetchPage : String → Option Html) : List RiktArticle :=
  match fetchPage riktBase with
  | none => []
  | some soup =>
    riktLoop fetchPage ((riktCollectUrls (findAnchorsWithHref soup) []).take 10) []

/-- The fixed demonstration text of
`news_tts_app_enhanced.NewsTTSApp.demo_turkish_tts`. -/
def demoTextEnh : String :=
  "\n        Merhaba! Bu, Türkçe metin okuma teknolojisinin bir demosu. \n        Yapay zeka teknolojisi sayesinde, yazılı metinleri doğal sesli konuşmaya dönüştürebiliyoruz. \n        Bu teknoloji, haber makalelerini sesli olarak dinlemek için kullanılabilir.\n        Günlük haberler artık sesli olarak dinlenebilir.\n        "

/-- The fixed demonstration text of
`news_tts_app.NewsTTSApp.demo_turkish_tts` (one sentence fewer). -/
def demoTextBasic : String :=
  "\n        Merhaba! Bu, Türkçe metin okuma teknolojisinin bir demosu. \n        Yapay zeka teknolojisi sayesinde, yazılı metinleri doğal sesli konuşmaya dönüştürebiliyoruz. \n        Bu teknoloji, haber makalelerini sesli olarak dinlemek için kullanılabilir.\n        "

/-- `create_safe_filename` of the enhanced app: keep alphanumerics,
space, dash, underscore; strip; replace spaces by underscores; truncate
to 30; then apply `'{date}_{index}_{title_short}.{ext}'` with
`ext = 'wav'`. -/
def create_safe_filename (title : String) (index : Nat) (dateStr : String) :
    String :=
  let s1 := pstrip (title.data.filter
    (fun c => c.isAlphanum || c == ' ' || c == '-' || c == '_'))
  let s2 := (s1.map (fun c => if c == ' ' then '_' else c)).take 30
  dateStr ++ "_" ++ toString index ++ "_" ++ (⟨s2⟩ : String) ++ ".wav"

/-- A metadata entry of the enhanced orchestrator (`file_size`, an I/O
value read back from disk, is omitted). -/
structure ProcessedEnh : Type where
  title : String
  author : String
  audio_file : String
  original_url : String
  date : String
deriving Repr, DecidableEq

/-- One item of the enhanced run result: the demo artifact marker
`{'demo': path}` or a processed-file entry. -/
inductive EnhRunItem : Type where
  | demo (path : String)
  | file (entry : ProcessedEnh)
deriving Repr, DecidableEq

/-- The per-column loop of the enhanced `process_daily_columns`, with
`synth` standing for `text_to_speech` (vendor call: `None` on any
caught error, otherwise the written audio path).  The second component
logs every synthesis input in call order. -/
def processColumnsLoopEnh (synth : String → String → Option String)
    (dateStr8 : String) :
    List (Nat × Article) → List ProcessedEnh → List String →
      List ProcessedEnh × List String
  | [], acc, log => (acc, log)
  | (i, col) :: rest, acc, log =>
    let fname := create_safe_filename col.title i dateStr8
    let log2 := log ++ [col.content]
    match synth col.content fname with
    | some path =>
      processColumnsLoopEnh synth dateStr8 rest
        (acc ++ [⟨col.title, col.author, path, col.url, col.date⟩]) log2
    | none => processColumnsLoopEnh synth dateStr8 rest acc log2

/-- `news_tts_app_enhanced.NewsTTSApp.process_daily_columns`, given the
single listing result `columns`: when it is empty, run the Turkish demo
once (at most one artifact); otherwise synthesize each column in turn,
skipping failures.  `dateStr8`/`tsStr` stand for the
`datetime.now().strftime(...)` values; metadata JSON output is I/O and
omitted.  Returns (run items, synthesis-call log). -/
def process_daily_columns_enhanced (synth : String → String → Option String)
    (columns : List Article) (dateStr8 tsStr : String) :
    List EnhRunItem × List String :=
  if columns.isEmpty then
    let fname := "turkish_demo_" ++ tsStr ++ ".wav"
    match synth demoTextEnh fname with
    | some p => ([.demo p], [demoTextEnh])
    | none => ([], [demoTextEnh])
  else
    let r := processColumnsLoopEnh synth dateStr8 (columns.enumFrom 1) [] []
    (r.1.map .file, r.2)

/-- A metadata entry of the basic orchestrator. -/
structure ProcessedBasic : Type where
  title : String
  audio_file : String
  original_url : String
  date : String
deriving Repr, DecidableEq

/-- The basic `process_daily_columns` returns either the demo result
(a path or `None`) or the processed-file list. -/
inductive BasicRunResult : Type where
  | demo (r : Option String)
  | files (l : List ProcessedBasic)
deriving Repr, DecidableEq

/-- Filename built by the basic app:
`f"{date}_{i+1}_{safe_title[:30]}.wav"` with
`safe_title = "".join(filtered).rstrip()`. -/
def basic_filename (title : String) (index1 : Nat) (dateStr8 : String) : String :=
  let s1 := ((title.data.filter
    (fun c => c.isAlphanum || c == ' ' || c == '-' || c == '_')).reverse.dropWhile
      isSpc).reverse
  dateStr8 ++ "_" ++ toString index1 ++ "_" ++ (⟨s1.take 30⟩ : String) ++ ".wav"

def processColumnsLoopBasic (synth : String → String → Option String)
    (dateStr8 : String) :
    List (Nat × Article) → List ProcessedBasic → List String →
      List ProcessedBasic × List String
  | [], acc, log => (acc, log)
  | (i, col) :: rest, acc, log =>
    let fname := basic_filename col.title (i + 1) dateStr8
    let log2 := log ++ [col.content]
    match synth col.content fname with
    | some path =>
      processColumnsLoopBasic synth dateStr8 rest
        (acc ++ [⟨col.title, path, col.url, col.date⟩]) log2
    | none => processColumnsLoopBasic synth dateStr8 rest acc log2

/-- `news_tts_app.NewsTTSApp.process_daily_columns`. -/
def process_daily_columns_basic (synth : String → String → Option String)
    (columns : List Article) (dateStr8 : String) :
    BasicRunResult × List String :=
  if columns.isEmpty then
    (.demo (synth demoTextBasic "turkish_demo.wav"), [demoTextBasic])
  else
    let r := processColumnsLoopBasic synth dateStr8 (columns.enum) [] []
    (.files r.1, r.2)

/-- `f"{stem}_part{idx:02d}.mp3"`. -/
def partFilename (stem : String) (idx1 : Nat) : String :=
  stem ++ "_part" ++ (if idx1 < 10 then "0" ++ toString idx1 else toString idx1) ++
    ".mp3"

/-- The per-part inner loop of
`ElevenLabsSwedishTTS.process_news_articles`: synthesize every part,
counting successes and failures, never stopping. -/
def partsLoop (synth : String → String → Bool) (stem : String) :
    List (Nat × List Char) → Nat → Nat → List String → Nat × Nat × List String
  | [], s, f, log => (s, f, log)
  | (idx, part) :: rest, s, f, log =>
    let txt : String := ⟨part⟩
    let log2 := log ++ [txt]
    if synth txt (partFilename stem (idx + 1)) then
      partsLoop synth stem rest (s + 1) f log2
    else partsLoop synth stem rest s (f + 1) log2

/-- The file loop of `ElevenLabsSwedishTTS.process_news_articles`,
over (stem, raw file content) pairs (directory listing and file reads
abstracted as the input list): empty files count as failures without a
call; long contents are chunked with `split_text`; every failure is
counted and the loop continues.  Returns (successful, failed, call log
of synthesized texts). -/
def processNewsLoop (synth : String → String → Bool) (maxLen : Nat) :
    List (String × String) → Nat → Nat → List String → Nat × Nat × List String
  | [], s, f, log => (s, f, log)
  | (stem, raw) :: rest, s, f, log =>
    let content : String := sstrip raw
    if content = "" then processNewsLoop synth maxLen rest s (f + 1) log
    else if maxLen < content.length then
      let parts := split_text content.data maxLen
      let r := partsLoop synth stem parts.enum s f log
      processNewsLoop synth maxLen rest r.1 r.2.1 r.2.2
    else
      let log2 := log ++ [content]
      if synth content (stem ++ ".mp3") then
        processNewsLoop synth maxLen rest (s + 1) f log2
      else processNewsLoop synth maxLen rest s (f + 1) log2

/-- `ElevenLabsSwedishTTS.process_news_articles` (counters start at 0;
`max_length` defaults to 5000 at the call site). -/
def process_news_articles (synth : String → String → Bool)
    (files : List (String × String)) (maxLen : Nat) : Nat × Nat × List String :=
  processNewsLoop synth maxLen files 0 0 []

lemma extractLoop_cons_none {s : Selector} {rest : List Selector} {page : Html}
    (h : selectOne s page = none) :
    extractLoop (s :: rest) page = extractLoop rest page := by
  simp [extractLoop, h]

lemma extractLoop_cons_some {s : Selector} {rest : List Selector} {page d : Html}
    (h : selectOne s page = some d) :
    extractLoop (s :: rest) page =
      String.intercalate "\n"
        (((findPs d).map (fun p => sstrip p.txtOf)).filter (fun t => !t.isEmpty)) := by
  simp [extractLoop, h]

lemma extractLoop_no_match :
    ∀ (sels : List Selector) (page : Html),
      (∀ s ∈ sels, (selectOne s page).isSome = false) →
      extractLoop sels page = "" := by
  intro sels
  induction sels with
  | nil => intro page _; rfl
  | cons s rest ih =>
    intro page h
    have hs := h s (by simp)
    cases hsel : selectOne s page with
    | some d => rw [hsel] at hs; simp at hs
    | none =>
      rw [extractLoop_cons_none hsel]
      exact ih page (fun x hx => h x (List.mem_cons_of_mem _ hx))

lemma extractLoop_append_no_match {pre : List Selector}
    {rest : List Selector} {page : Html}
    (h : ∀ s ∈ pre, (selectOne s page).isSome = false) :
    extractLoop (pre ++ rest) page = extractLoop rest page := by
  induction pre with
  | nil => rfl
  | cons s t ih =>
    have hs := h s (by simp)
    cases hsel : selectOne s page with
    | some d => rw [hsel] at hs; simp at hs
    | none =>
      rw [List.cons_append, extractLoop_cons_none hsel]
      exact ih (fun x hx => h x (List.mem_cons_of_mem _ hx))

/-- C4 (confirmed).  When no selector of the configured content
selector list matches any element of the page, `get_column_content`
returns the fixed sentinel string `"Content could not be extracted"`
as an ordinary value.  The extractor is a total function of the parsed
page, so no exception can arise under this precondition. -/
theorem claim4_no_match_sentinel (page : Html)
    (h : ∀ s ∈ contentSelectors, (selectOne s page).isSome = false) :
    get_column_content_pure page = sentinel := by
  have h0 : extractLoop contentSelectors page = "" :=
    extractLoop_no_match contentSelectors page h
  simp [get_column_content_pure, extractContent, h0]

/-- A page on which none of the five content selectors matches. -/
def c4page : Html :=
  .el "[document]" [] "" none [.el "div" ["foo"] "hello" none []]

/-- C4 witness: the sentinel on a concrete selector-free page. -/
theorem claim4_witness : get_column_content_pure c4page = sentinel :=
  claim4_no_match_sentinel c4page (by decide)

/-- C3 counterexample page: the first listed selector
(`div.content`) matches a container without any paragraph, while the
later selector (`div.post-content`) matches a container holding the
nonempty paragraph `"Hi"`. -/
def c3selA : Selector := ⟨"div", some "content"⟩

def c3selB : Selector := ⟨"div", some "post-content"⟩

def c3page : Html :=
  .el "[document]" [] "" none
    [.el "div" ["content"] "" none [.el "span" [] "decoy" none []],
     .el "div" ["post-content"] "Hi" none [.el "p" [] "Hi" none []]]

/-- C3 counterexample, on the configured selector list.  Some selector
of the list matches a container holding a non-empty paragraph
(`div.post-content` → `"Hi"`), yet the extractor returns the sentinel:
the loop breaks at the earlier `div.content` match, whose container
has no paragraphs, so the result is neither that container's (empty)
paragraph join nor the later container's `"Hi"`. -/
theorem claim3_counterexample :
    (selectOne c3selB c3page).isSome = true ∧
    extractContent contentSelectors c3page = sentinel ∧
    extractContent [c3selA, c3selB] c3page = sentinel ∧
    sentinel ≠ "" ∧ sentinel ≠ "Hi" := by
  refine ⟨rfl, by decide, rfl, by decide, by decide⟩

/-- C3 (amended).  If the FIRST selector in the list whose
`select_one` finds a container is followed by arbitrary later
selectors, and that container's paragraph join (each paragraph
trimmed, empty ones dropped, joined with newline, in document order)
is non-empty, then `extract` returns exactly that join; the selectors
after it have no effect whatsoever.  (The original claim only demanded
that SOME selector match a container with a non-empty paragraph; it
fails when an earlier selector matches a paragraph-free container -
the loop breaks there and the sentinel is returned, see the
counterexample.) -/
theorem claim3_first_match_amended (page : Html) (pre post : List Selector)
    (s : Selector) (container : Html)
    (hpre : ∀ x ∈ pre, (selectOne x page).isSome = false)
    (hsel : selectOne s page = some container)
    (hjoin : String.intercalate "\n"
      (((findPs container).map (fun p => sstrip p.txtOf)).filter
        (fun t => !t.isEmpty)) ≠ "") :
    extractContent (pre ++ s :: post) page =
      String.intercalate "\n"
        (((findPs container).map (fun p => sstrip p.txtOf)).filter
          (fun t => !t.isEmpty)) := by
  have hl : extractLoop (pre ++ s :: post) page =
      String.intercalate "\n"
        (((findPs container).map (fun p => sstrip p.txtOf)).filter
          (fun t => !t.isEmpty)) := by
    rw [extractLoop_append_no_match hpre, extractLoop_cons_some hsel]
  simp [extractContent, hl, hjoin]

def w3container : Html :=
  .el "div" ["content"] "Hello" none [.el "p" [] "Hello" none []]

def w3page : Html := .el "[document]" [] "" none [w3container]

/-- C3 witness: with the configured selector list, a page whose first
matching selector is `div.content` with the paragraph `"Hello"`. -/
theorem claim3_witness : extractContent contentSelectors w3page = "Hello" := by
  have h := claim3_first_match_amended w3page [⟨"div", some "article-content"⟩]
    [⟨"div", some "post-content"⟩, ⟨"article", none⟩, ⟨"div", some "entry-content"⟩]
    ⟨"div", some "content"⟩ w3container (by decide) rfl (by decide)
  exact h

lemma enhPrimaryLoop_cons_skip {fp : String → Option Html} {d : String}
    {cap : Nat} {card : Html} {rest : List Html} {acc : List Article}
    (h : enhCardStep fp d card = .ok none) :
    enhPrimaryLoop fp d cap (card :: rest) acc = enhPrimaryLoop fp d cap rest acc := by
  simp [enhPrimaryLoop, h]

lemma enhPrimaryLoop_cons_accept {fp : String → Option Html} {d : String}
    {cap : Nat} {card : Html} {rest : List Html} {acc : List Article}
    {art : Article} (h : enhCardStep fp d card = .ok (some art)) :
    enhPrimaryLoop fp d cap (card :: rest) acc =
      if cap ≤ (acc ++ [art]).length then .ok (acc ++ [art])
      else enhPrimaryLoop fp d cap rest (acc ++ [art]) := by
  simp [enhPrimaryLoop, h]

lemma enhCardStep_of_fetch_none {fp : String → Option Html} {d : String}
    {card tEl lEl : Html} {link : String}
    (ht : selectOne selTitle card = some tEl)
    (hl : selectOne selLink card = some lEl)
    (hr : lEl.hrefOf = some link)
    (hf : fp (enhResolve link) = none) :
    enhCardStep fp d card = .ok none := by
  have hc : get_column_content fp (enhResolve link) = none := by
    rw [get_column_content, hf]; rfl
  simp [enhCardStep, ht, hl, hr, hc]

/-- The article page whose genuine body text is exactly the sentinel
phrase. -/
def c10genuinePage : Html :=
  .el "[document]" [] "" none
    [.el "div" ["article-content"] "Content could not be extracted" none
      [.el "p" [] "Content could not be extracted" none []]]

/-- C10 (confirmed).  The enhanced lister decides acceptance by string
equality with the exact sentinel: given a card with title and link
(with href) present, (i) if the extracted content equals the sentinel
string the card yields no article and is skipped by the loop - this
includes a genuine article whose body text is exactly that phrase,
since the extractor returns that text verbatim and it compares equal -
and (ii) any other non-empty extracted string is accepted, yielding an
article carrying it. -/
theorem claim10_sentinel_string_equality (fp : String → Option Html)
    (d : String) (card tEl lEl : Html) (link : String)
    (ht : selectOne selTitle card = some tEl)
    (hl : selectOne selLink card = some lEl)
    (hr : lEl.hrefOf = some link) :
    (get_column_content fp (enhResolve link) = some sentinel →
      enhCardStep fp d card = .ok none ∧
      ∀ (rest : List Html) (acc : List Article) (cap : Nat),
        enhPrimaryLoop fp d cap (card :: rest) acc =
          enhPrimaryLoop fp d cap rest acc) ∧
    (∀ s : String, get_column_content fp (enhResolve link) = some s →
      s ≠ "" → s ≠ sentinel →
      enhCardStep fp d card =
        .ok (some ⟨sstrip tEl.txtOf, enhAuthorOf card, enhResolve link, s, d⟩)) ∧
    get_column_content_pure c10genuinePage = sentinel := by
  refine ⟨?_, ?_, by decide⟩
  · intro hc
    have hstep : enhCardStep fp d card = .ok none := by
      simp [enhCardStep, ht, hl, hr, hc]
    exact ⟨hstep, fun rest acc cap => enhPrimaryLoop_cons_skip hstep⟩
  · intro s hc hne hnsent
    simp [enhCardStep, ht, hl, hr, hc, hne, hnsent]

def c10tEl : Html := .el "h3" [] "Some title" none []

def c10lEl : Html := .el "a" ["card"] "" (some "/columns/x") []

def c10card : Html := .el "div" ["article-card"] "" none [c10tEl, c10lEl]

def c10fetch : String → Option Html := fun u =>
  if u = dsBase ++ "/columns/x" then some c10genuinePage else none

/-- C10 witness: the genuine sentinel-texted article page makes a
well-formed card yield no article. -/
theorem claim10_witness :
    enhCardStep c10fetch "2025-01-01" c10card = .ok none :=
  ((claim10_sentinel_string_equality c10fetch "2025-01-01" c10card c10tEl c10lEl
    "/columns/x" rfl rfl rfl).1 (by decide)).1

/-- C7 (confirmed).  Failure semantics of the listers: (i) a request
failure fetching the Daily Sabah listing page makes the enhanced
lister return the empty sequence; (ii) a request failure fetching one
card's article page only skips that card - the loop continues on the
remaining cards with the same accumulator; (iii) likewise for
riktpunkt: a main-page failure returns the empty sequence, and (iv) a
failure on one article URL skips exactly that URL. -/
theorem claim7_fetch_failure_semantics :
    (∀ (fp : String → Option Html) (d : String) (cap : Nat),
      fp dsListingUrl = none →
      get_daily_sabah_columns_enhanced fp d cap = []) ∧
    (∀ (fp : String → Option Html) (d : String) (cap : Nat)
      (card tEl lEl : Html) (link : String) (rest : List Html)
      (acc : List Article),
      selectOne selTitle card = some tEl →
      selectOne selLink card = some lEl →
      lEl.hrefOf = some link →
      fp (enhResolve link) = none →
      enhPrimaryLoop fp d cap (card :: rest) acc =
        enhPrimaryLoop fp d cap rest acc) ∧
    (∀ fp : String → Option Html, fp riktBase = none → scrape_news fp = []) ∧
    (∀ (fp : String → Option Html) (u : String) (rest : List String)
      (acc : List RiktArticle), fp u = none →
      riktLoop fp (u :: rest) acc = riktLoop fp rest acc) := by
  refine ⟨?_, ?_, ?_, ?_⟩
  · intro fp d cap h
    simp [get_daily_sabah_columns_enhanced, h]
  · intro fp d cap card tEl lEl link rest acc ht hl hr hf
    exact enhPrimaryLoop_cons_skip (enhCardStep_of_fetch_none ht hl hr hf)
  · intro fp h
    simp [scrape_news, h]
  · intro fp u rest acc h
    simp [riktLoop, h]

/-- C7 witness: concrete all-failing fetchers. -/
theorem claim7_witness :
    get_daily_sabah_columns_enhanced (fun _ => none) "2025-01-01" 5 = [] ∧
    scrape_news (fun _ => none) = [] :=
  ⟨claim7_fetch_failure_semantics.1 _ "2025-01-01" 5 rfl,
   claim7_fetch_failure_semantics.2.2.1 _ rfl⟩

instance exceptDecEq {ε α : Type} [DecidableEq ε] [DecidableEq α] :
    DecidableEq (Except ε α) := fun a b =>
  match a, b with
  | .error e, .error f =>
    if h : e = f then .isTrue (by rw [h])
    else .isFalse (fun hh => by injection hh with h2; exact h h2)
  | .error _, .ok _ => .isFalse (fun hh => Except.noConfusion hh)
  | .ok _, .error _ => .isFalse (fun hh => Except.noConfusion hh)
  | .ok x, .ok y =>
    if h : x = y then .isTrue (by rw [h])
    else .isFalse (fun hh => by injection hh with h2; exact h h2)

/-- The article a card contributes, if any (skips and crashes both
give `none`). -/
def enhStepResult (fp : String → Option Html) (d : String) (card : Html) :
    Option Article :=
  match enhCardStep fp d card with
  | .ok r => r
  | .error _ => none

/-- All accepted articles of a card list, in document order. -/
def acceptedOf (fp : String → Option Html) (d : String) (cards : List Html) :
    List Article :=
  cards.filterMap (enhStepResult fp d)

lemma enhPrimaryLoop_take (fp : String → Option Html) (d : String) (cap : Nat) :
    ∀ (cards : List Html) (acc : List Article),
      (∀ c ∈ cards, enhCardStep fp d c ≠ .error ()) →
      acc.length < cap →
      cap - acc.length ≤ (acceptedOf fp d cards).length →
      enhPrimaryLoop fp d cap cards acc =
        .ok (acc ++ (acceptedOf fp d cards).take (cap - acc.length)) := by
  intro cards
  induction cards with
  | nil =>
    intro acc _ hlt hlen
    exfalso
    simp [acceptedOf] at hlen
    omega
  | cons card rest ih =>
    intro acc hne hlt hlen
    rcases hstep : enhCardStep fp d card with e | r
    · cases e
      exact absurd hstep (hne card (by simp))
    · have hrest : ∀ c ∈ rest, enhCardStep fp d c ≠ .error () :=
        fun c hc => hne c (List.mem_cons_of_mem _ hc)
      have hacc : acceptedOf fp d (card :: rest) =
          (match r with
           | some art => art :: acceptedOf fp d rest
           | none => acceptedOf fp d rest) := by
        cases r with
        | none => simp [acceptedOf, enhStepResult, hstep]
        | some art => simp [acceptedOf, enhStepResult, hstep]
      cases r with
      | none =>
        rw [enhPrimaryLoop_cons_skip hstep, hacc]
        rw [hacc] at hlen
        exact ih acc hrest hlt hlen
      | some art =>
        rw [enhPrimaryLoop_cons_accept hstep, hacc]
        rw [hacc] at hlen
        by_cases hcap : cap ≤ (acc ++ [art]).length
        · rw [if_pos hcap]
          have hone : cap - acc.length = 1 := by
            rw [List.length_append, List.length_singleton] at hcap
            omega
          rw [hone, List.take_succ_cons, List.take_zero]
        · rw [if_neg hcap]
          rw [List.length_append, List.length_singleton] at hcap
          have h2 : (acc ++ [art]).length < cap := by
            rw [List.length_append, List.length_singleton]; omega
          rw [ih (acc ++ [art]) hrest h2 ?_]
          · obtain ⟨k, hk⟩ : ∃ k, cap - acc.length = k + 1 := ⟨cap - acc.length - 1, by omega⟩
            rw [hk, List.take_succ_cons]
            have hk2 : cap - (acc ++ [art]).length = k := by
              rw [List.length_append, List.length_singleton]; omega
            rw [hk2, List.append_assoc]
            rfl
          · rw [List.length_append, List.length_singleton]
            simp only [List.length_cons] at hlen
            omega

/-- C5 (amended).  In the enhanced lister's card loop, when every card
is well-formed (no href crash) and strictly more cards are accepted
(non-empty, non-sentinel extracted content) than the cap, the loop
returns exactly the first `cap` accepted articles in document order -
cards whose extraction fails do not count.  In the basic lister
(`news_tts_app.py`), however, the loop visits every card and accepts
any truthy content, so a card whose extraction yields the sentinel
string DOES count toward the `[:5]` cap (the only amendment forced by
the counterexample); with all cards well-formed its loop returns all
accepted articles, of which the lister keeps the first five. -/
theorem claim5_cap_semantics :
    (∀ (fp : String → Option Html) (d : String) (cap : Nat) (cards : List Html),
      (∀ c ∈ cards, enhCardStep fp d c ≠ .error ()) →
      0 < cap → cap < (acceptedOf fp d cards).length →
      enhPrimaryLoop fp d cap cards [] =
        .ok ((acceptedOf fp d cards).take cap) ∧
      ((acceptedOf fp d cards).take cap).length = cap) ∧
    (∀ (fp : String → Option Html) (d : String) (cards : List Html)
      (acc : List Article),
      (∀ c ∈ cards, basicCardStep fp d c ≠ .error ()) →
      basicLoop fp d cards acc =
        .ok (acc ++ cards.filterMap (fun c =>
          match basicCardStep fp d c with
          | .ok r => r
          | .error _ => none))) ∧
    (∀ (fp : String → Option Html) (d : String) (card tEl aEl lEl : Html)
      (link : String),
      selectOne selTitle card = some tEl →
      selectOne selAuthor card = some aEl →
      selectOne selLink card = some lEl →
      lEl.hrefOf = some link →
      get_column_content fp (enhResolve link) = some sentinel →
      basicCardStep fp d card =
        .ok (some ⟨sstrip tEl.txtOf, sstrip aEl.txtOf, enhResolve link,
          sentinel, d⟩)) := by
  refine ⟨?_, ?_, ?_⟩
  · intro fp d cap cards hne hcap hlen
    have h := enhPrimaryLoop_take fp d cap cards [] hne (by simpa using hcap)
      (by simpa using le_of_lt hlen)
    simp only [List.length_nil, Nat.sub_zero, List.nil_append] at h
    refine ⟨h, ?_⟩
    rw [List.length_take]
    omega
  · intro fp d cards
    induction cards with
    | nil => intro acc _; simp [basicLoop]
    | cons card rest ih =>
      intro acc hne
      rcases hstep : basicCardStep fp d card with e | r
      · cases e
        exact absurd hstep (hne card (by simp))
      · have hrest : ∀ c ∈ rest, basicCardStep fp d c ≠ .error () :=
          fun c hc => hne c (List.mem_cons_of_mem _ hc)
        cases r with
        | none =>
          rw [show basicLoop fp d (card :: rest) acc = basicLoop fp d rest acc
            by simp [basicLoop, hstep]]
          rw [ih acc hrest]
          simp [hstep]
        | some art =>
          rw [show basicLoop fp d (card :: rest) acc =
              basicLoop fp d rest (acc ++ [art]) by simp [basicLoop, hstep]]
          rw [ih (acc ++ [art]) hrest]
          simp [hstep]
  · intro fp d card tEl aEl lEl link ht ha hl hr hc
    have hse : sentinel ≠ "" := by decide
    simp [basicCardStep, ht, ha, hl, hr, hc, hse]

/-- A well-formed listing card with title, author and link. -/
def mkCard (i : String) : Html :=
  .el "div" ["article-card"] "" none
    [.el "h3" [] ("Title " ++ i) none [],
     .el "div" ["author-info"] ("Author " ++ i) none [],
     .el "a" ["card"] "" (some ("/columns/c" ++ i)) []]

/-- An article page whose `div.article-content` holds one paragraph. -/
def artPage (txt : String) : Html :=
  .el "[document]" [] "" none
    [.el "div" ["article-content"] txt none [.el "p" [] txt none []]]

/-- An article page on which no content selector matches, so extraction
fails with the sentinel. -/
def failPage : Html :=
  .el "[document]" [] "" none [.el "div" ["nomatch"] "" none []]

def c5listing : Html :=
  .el "[document]" [] "" none
    [mkCard "1", mkCard "2", mkCard "3", mkCard "4", mkCard "5", mkCard "6",
     mkCard "7"]

/-- Listing with seven cards; card 1's article page defeats extraction
(sentinel), cards 2-7 extract real bodies. -/
def c5fetch : String → Option Html := fun u =>
  if u = dsListingUrl then some c5listing
  else if u = dsBase ++ "/columns/c1" then some failPage
  else if u = dsBase ++ "/columns/c2" then some (artPage "Body two")
  else if u = dsBase ++ "/columns/c3" then some (artPage "Body three")
  else if u = dsBase ++ "/columns/c4" then some (artPage "Body four")
  else if u = dsBase ++ "/columns/c5" then some (artPage "Body five")
  else if u = dsBase ++ "/columns/c6" then some (artPage "Body six")
  else if u = dsBase ++ "/columns/c7" then some (artPage "Body seven")
  else none

/-- C5 counterexample.  Six cards qualify in the claim's sense
(successful non-sentinel extraction) and the cap is 5, so the claim
predicts the first five qualifying articles (cards 2-6) with the
failed card 1 not counting.  The basic lister of `news_tts_app.py`
instead returns cards 1-5: the sentinel result of card 1 is truthy,
is accepted, counts against the `[:5]` cap, and displaces card 6. -/
theorem claim5_counterexample :
    ((selectAll selArticleCards c5listing).filter (fun c =>
      match basicCardStep c5fetch "2025-01-01" c with
      | .ok (some a) => a.content != sentinel
      | _ => false)).length = 6 ∧
    get_daily_sabah_columns_basic c5fetch "2025-01-01" =
      [⟨"Title 1", "Author 1", dsBase ++ "/columns/c1", sentinel, "2025-01-01"⟩,
       ⟨"Title 2", "Author 2", dsBase ++ "/columns/c2", "Body two", "2025-01-01"⟩,
       ⟨"Title 3", "Author 3", dsBase ++ "/columns/c3", "Body three", "2025-01-01"⟩,
       ⟨"Title 4", "Author 4", dsBase ++ "/columns/c4", "Body four", "2025-01-01"⟩,
       ⟨"Title 5", "Author 5", dsBase ++ "/columns/c5", "Body five", "2025-01-01"⟩] := by
  refine ⟨by decide, by decide⟩

/-- C5 witness: the amended claim's enhanced-lister part on the same
seven-card listing (six accepted articles, cap 5). -/
theorem claim5_witness :
    enhPrimaryLoop c5fetch "2025-01-01" 5 (selectAll selArticleCards c5listing) [] =
      .ok ((acceptedOf c5fetch "2025-01-01"
        (selectAll selArticleCards c5listing)).take 5) ∧
    ((acceptedOf c5fetch "2025-01-01"
      (selectAll selArticleCards c5listing)).take 5).length = 5 :=
  claim5_cap_semantics.1 c5fetch "2025-01-01" 5 _ (by decide) (by decide) (by decide)

/-- C6 (amended).  Only in the ENHANCED lister's primary path is the
author sub-element optional: a card with title and link present, an
href on the link, and accepted content yields an Article whose author
is `"Unknown"` when the author sub-element is absent, and cards
missing title or link yield no Article.  In the basic listers
(`news_tts_app.py` and `scrape_dailysabah.py`) - both cited by the
claim - the author sub-element is additionally REQUIRED: a card
without it yields no Article at all (the amendment forced by the
counterexample).  (Also implicit in "yields an Article": the enhanced
card only yields one when its content extraction succeeds with a
non-empty, non-sentinel body, and the enhanced path aborts wholesale
if a link element lacks an href.) -/
theorem claim6_author_optionality (fp : String → Option Html) (d : String)
    (card : Html) :
    (∀ (tEl lEl : Html) (link s : String),
      selectOne selTitle card = some tEl →
      selectOne selLink card = some lEl →
      lEl.hrefOf = some link →
      selectOne selAuthor card = none →
      get_column_content fp (enhResolve link) = some s →
      s ≠ "" → s ≠ sentinel →
      enhCardStep fp d card =
        .ok (some ⟨sstrip tEl.txtOf, "Unknown", enhResolve link, s, d⟩)) ∧
    ((selectOne selTitle card).isSome = false ∨
      (selectOne selLink card).isSome = false →
      enhCardStep fp d card = .ok none) ∧
    (selectOne selAuthor card = none →
      basicCardStep fp d card = .ok none) ∧
    (selectOne selAuthor card = none →
      ∀ acc : List DSItem, scrape_ds_loop fp [card] acc = .ok acc) := by
  refine ⟨?_, ?_, ?_, ?_⟩
  · intro tEl lEl link s ht hl hr hauth hc hne hnsent
    have hu : enhAuthorOf card = "Unknown" := by simp [enhAuthorOf, hauth]
    simp [enhCardStep, ht, hl, hr, hc, hne, hnsent, hu]
  · intro h
    rcases ht : selectOne selTitle card with _ | tEl
    · simp [enhCardStep, ht]
    · rcases hl : selectOne selLink card with _ | lEl
      · simp [enhCardStep, ht, hl]
      · rw [ht, hl] at h
        simp at h
  · intro hauth
    rcases ht : selectOne selTitle card with _ | tEl
    · simp [basicCardStep, ht]
    · simp [basicCardStep, ht, hauth]
  · intro hauth acc
    rcases ht : selectOne selTitle card with _ | tEl
    · simp [scrape_ds_loop, ht]
    · simp [scrape_ds_loop, ht, hauth]

/-- A card with title and link but no author sub-element. -/
def c6card : Html :=
  .el "div" ["article-card"] "" none
    [.el "h3" [] "Title X" none [],
     .el "a" ["card"] "" (some "/columns/x") []]

def c6listing : Html := .el "[document]" [] "" none [c6card]

def c6fetch : String → Option Html := fun u =>
  if u = dsListingUrl then some c6listing
  else if u = dsBase ++ "/columns/x" then some (artPage "Good body") else none

/-- C6 counterexample.  A card with present title and link
sub-elements and perfectly extractable content yields NO article in
the basic listers (both `news_tts_app.py` and `scrape_dailysabah.py`
require the author sub-element), contradicting the claim that such a
card yields an Article with author `"Unknown"`. -/
theorem claim6_counterexample :
    (selectOne selTitle c6card).isSome = true ∧
    (selectOne selLink c6card).isSome = true ∧
    get_column_content c6fetch (enhResolve "/columns/x") = some "Good body" ∧
    get_daily_sabah_columns_basic c6fetch "2025-01-01" = [] ∧
    get_daily_sabah_columns_ds c6fetch = .ok [] := by
  refine ⟨rfl, rfl, by decide, by decide, by decide⟩

/-- C6 witness: on the same card, the ENHANCED lister does yield the
article with author `"Unknown"`. -/
theorem claim6_witness :
    enhCardStep c6fetch "2025-01-01" c6card =
      .ok (some ⟨"Title X", "Unknown", dsBase ++ "/columns/x", "Good body",
        "2025-01-01"⟩) := by
  have h := (claim6_author_optionality c6fetch "2025-01-01" c6card).1
    (.el "h3" [] "Title X" none []) (.el "a" ["card"] "" (some "/columns/x") [])
    "/columns/x" "Good body" rfl rfl rfl rfl (by decide) (by decide) (by decide)
  exact h

/-- C8 (confirmed).  When the listing step yields zero articles, both
orchestrators synthesize the fixed canned demonstration text exactly
once - the synthesis-call log is exactly `[demo text]` - and produce at
most one demo audio artifact; the lister is invoked once before the
branch and never again (the orchestrator model consumes a single
listing result, mirroring the single `get_daily_sabah_columns()` call
in `process_daily_columns`).  Additionally, on a listing page with no
article cards and no anchors at all, the enhanced lister itself
returns the empty sequence. -/
theorem claim8_demo_exactly_once (synth : String → String → Option String)
    (columns : List Article) (d8 ts : String) (h : columns = []) :
    (process_daily_columns_enhanced synth columns d8 ts).2 = [demoTextEnh] ∧
    ((process_daily_columns_enhanced synth columns d8 ts).1 = [] ∨
      ∃ p, (process_daily_columns_enhanced synth columns d8 ts).1 = [.demo p]) ∧
    (process_daily_columns_basic synth columns d8).2 = [demoTextBasic] ∧
    (∀ (fp : String → Option Html) (d : String) (cap : Nat) (soup : Html),
      fp dsListingUrl = some soup →
      selectAll selArticleCards soup = [] →
      findAnchorsWithHref soup = [] →
      get_daily_sabah_columns_enhanced fp d cap = []) := by
  subst h
  refine ⟨?_, ?_, ?_, ?_⟩
  · rcases hs : synth demoTextEnh ("turkish_demo_" ++ ts ++ ".wav") with _ | p <;>
      simp [process_daily_columns_enhanced, hs]
  · rcases hs : synth demoTextEnh ("turkish_demo_" ++ ts ++ ".wav") with _ | p
    · left; simp [process_daily_columns_enhanced, hs]
    · right; exact ⟨p, by simp [process_daily_columns_enhanced, hs]⟩
  · simp [process_daily_columns_basic]
  · intro fp d cap soup hf hcards hanch
    simp [get_daily_sabah_columns_enhanced, hf, hcards, hanch, enhFallbackLoop]

/-- C8 witness: an empty listing with a concrete succeeding vendor. -/
theorem claim8_witness :
    (process_daily_columns_enhanced (fun _ _ => some "out.wav") [] "20250101"
      "120000").2 = [demoTextEnh] :=
  (claim8_demo_exactly_once (fun _ _ => some "out.wav") [] "20250101" "120000"
    rfl).1

lemma processColumnsLoopEnh_char (synth : String → String → Option String)
    (d8 : String) :
    ∀ (l : List (Nat × Article)) (acc : List ProcessedEnh) (log : List String),
      (processColumnsLoopEnh synth d8 l acc log).2 =
        log ++ l.map (fun ic => ic.2.content) ∧
      (processColumnsLoopEnh synth d8 l acc log).1 =
        acc ++ l.filterMap (fun ic =>
          (synth ic.2.content (create_safe_filename ic.2.title ic.1 d8)).map
            (fun p =>
              (⟨ic.2.title, ic.2.author, p, ic.2.url, ic.2.date⟩ : ProcessedEnh))) := by
  intro l
  induction l with
  | nil => intro acc log; simp [processColumnsLoopEnh]
  | cons ic rest ih =>
    intro acc log
    obtain ⟨i, col⟩ := ic
    rcases hs : synth col.content (create_safe_filename col.title i d8) with _ | p
    · have h2 := ih acc (log ++ [col.content])
      refine ⟨?_, ?_⟩
      · rw [show (processColumnsLoopEnh synth d8 ((i, col) :: rest) acc log) =
          processColumnsLoopEnh synth d8 rest acc (log ++ [col.content]) by
            simp [processColumnsLoopEnh, hs]]
        rw [h2.1]; simp
      · rw [show (processColumnsLoopEnh synth d8 ((i, col) :: rest) acc log) =
          processColumnsLoopEnh synth d8 rest acc (log ++ [col.content]) by
            simp [processColumnsLoopEnh, hs]]
        rw [h2.2]; simp [hs]
    · have h2 := ih (acc ++ [⟨col.title, col.author, p, col.url, col.date⟩])
        (log ++ [col.content])
      refine ⟨?_, ?_⟩
      · rw [show (processColumnsLoopEnh synth d8 ((i, col) :: rest) acc log) =
          processColumnsLoopEnh synth d8 rest
            (acc ++ [⟨col.title, col.author, p, col.url, col.date⟩])
            (log ++ [col.content]) by simp [processColumnsLoopEnh, hs]]
        rw [h2.1]; simp
      · rw [show (processColumnsLoopEnh synth d8 ((i, col) :: rest) acc log) =
          processColumnsLoopEnh synth d8 rest
            (acc ++ [⟨col.title, col.author, p, col.url, col.date⟩])
            (log ++ [col.content]) by simp [processColumnsLoopEnh, hs]]
        rw [h2.2]; simp [hs]

lemma partsLoop_log (synth : String → String → Bool) (stem : String) :
    ∀ (l : List (Nat × List Char)) (s f : Nat) (log : List String),
      (partsLoop synth stem l s f log).2.2 =
        log ++ l.map (fun ip => (⟨ip.2⟩ : String)) := by
  intro l
  induction l with
  | nil => intro s f log; simp [partsLoop]
  | cons ip rest ih =>
    intro s f log
    obtain ⟨idx, part⟩ := ip
    rcases hs : synth (⟨part⟩ : String) (partFilename stem (idx + 1)) with _ | _
    · rw [show partsLoop synth stem ((idx, part) :: rest) s f log =
        partsLoop synth stem rest s (f + 1) (log ++ [(⟨part⟩ : String)]) by
          simp [partsLoop, hs]]
      rw [ih]; simp
    · rw [show partsLoop synth stem ((idx, part) :: rest) s f log =
        partsLoop synth stem rest (s + 1) f (log ++ [(⟨part⟩ : String)]) by
          simp [partsLoop, hs]]
      rw [ih]; simp

/-- The texts `process_news_articles` attempts for one file. -/
def attemptTexts (maxLen : Nat) (fl : String × String) : List String :=
  let c := sstrip fl.2
  if c = "" then []
  else if maxLen < c.length then
    (split_text c.data maxLen).map (fun p => (⟨p⟩ : String))
  else [c]

lemma processNewsLoop_log (synth : String → String → Bool) (maxLen : Nat) :
    ∀ (files : List (String × String)) (s f : Nat) (log : List String),
      (processNewsLoop synth maxLen files s f log).2.2 =
        log ++ files.flatMap (attemptTexts maxLen) := by
  intro files
  induction files with
  | nil => intro s f log; simp [processNewsLoop]
  | cons fl rest ih =>
    intro s f log
    obtain ⟨stem, raw⟩ := fl
    by_cases hc : sstrip raw = ""
    · rw [show processNewsLoop synth maxLen ((stem, raw) :: rest) s f log =
        processNewsLoop synth maxLen rest s (f + 1) log by
          simp [processNewsLoop, hc]]
      rw [ih]
      simp [attemptTexts, hc]
    · by_cases hlen : maxLen < (sstrip raw).length
      · rw [show processNewsLoop synth maxLen ((stem, raw) :: rest) s f log =
          processNewsLoop synth maxLen rest
            (partsLoop synth stem (split_text (sstrip raw).data maxLen).enum s f log).1
            (partsLoop synth stem (split_text (sstrip raw).data maxLen).enum s f log).2.1
            (partsLoop synth stem (split_text (sstrip raw).data maxLen).enum s f log).2.2
          by simp [processNewsLoop, hc, hlen]]
        rw [ih, partsLoop_log]
        have hmap : ((split_text (sstrip raw).data maxLen).enum.map
            (fun ip => (⟨ip.2⟩ : String))) =
            (split_text (sstrip raw).data maxLen).map (fun p => (⟨p⟩ : String)) := by
          rw [show (fun ip : Nat × List Char => (⟨ip.2⟩ : String)) =
            (fun p : List Char => (⟨p⟩ : String)) ∘ Prod.snd from rfl]
          rw [← List.map_map, List.enum_map_snd]
        rw [hmap]
        simp [attemptTexts, hc, hlen]
      · rcases hs : synth (sstrip raw) (stem ++ ".mp3") with _ | _
        · rw [show processNewsLoop synth maxLen ((stem, raw) :: rest) s f log =
            processNewsLoop synth maxLen rest s (f + 1) (log ++ [sstrip raw]) by
              simp [processNewsLoop, hc, hlen, hs]]
          rw [ih]
          simp [attemptTexts, hc, hlen]
        · rw [show processNewsLoop synth maxLen ((stem, raw) :: rest) s f log =
            processNewsLoop synth maxLen rest (s + 1) f (log ++ [sstrip raw]) by
              simp [processNewsLoop, hc, hlen, hs]]
          rw [ih]
          simp [attemptTexts, hc, hlen]

/-- C9 (confirmed).  Synthesis failures never abort a run.  For the
enhanced orchestrator on a non-empty column list: the synthesis-call
log is exactly the contents of ALL columns in order - independent of
which calls fail - and the produced entries are exactly those of the
columns whose synthesis succeeded, in order, each with its enumerated
filename; so items before and after any failure are still produced.
For `ElevenLabsSwedishTTS.process_news_articles`: the synthesis-call
log is exactly the concatenation, over all files, of the attempted
texts (the stripped content, chunked by `split_text` when over
`max_length`), again independent of the success function. -/
theorem claim9_failures_skip_and_continue :
    (∀ (synth : String → String → Option String) (col : Article)
      (cols : List Article) (d8 ts : String),
      (process_daily_columns_enhanced synth (col :: cols) d8 ts).2 =
        (col :: cols).map (fun c => c.content) ∧
      (process_daily_columns_enhanced synth (col :: cols) d8 ts).1 =
        ((col :: cols).enumFrom 1).filterMap (fun ic =>
          (synth ic.2.content (create_safe_filename ic.2.title ic.1 d8)).map
            (fun p => EnhRunItem.file
              ⟨ic.2.title, ic.2.author, p, ic.2.url, ic.2.date⟩))) ∧
    (∀ (synth : String → String → Bool) (files : List (String × String))
      (maxLen : Nat),
      (process_news_articles synth files maxLen).2.2 =
        files.flatMap (attemptTexts maxLen)) := by
  refine ⟨?_, ?_⟩
  · intro synth col cols d8 ts
    have h := processColumnsLoopEnh_char synth d8 ((col :: cols).enumFrom 1) [] []
    constructor
    · rw [show (process_daily_columns_enhanced synth (col :: cols) d8 ts).2 =
        (processColumnsLoopEnh synth d8 ((col :: cols).enumFrom 1) [] []).2 from rfl]
      rw [h.1]
      rw [List.nil_append]
      rw [show (fun ic : Nat × Article => ic.2.content) =
        (fun c : Article => c.content) ∘ Prod.snd from rfl]
      rw [← List.map_map, List.enumFrom_map_snd]
    · rw [show (process_daily_columns_enhanced synth (col :: cols) d8 ts).1 =
        (processColumnsLoopEnh synth d8 ((col :: cols).enumFrom 1) [] []).1.map
          EnhRunItem.file from rfl]
      rw [h.2]
      rw [List.nil_append, List.map_filterMap]
      congr 1
      funext ic
      rw [Option.map_map]
      rfl
  · intro synth files maxLen
    rw [process_news_articles, processNewsLoop_log]
    rfl

end NewsTTS
